import Mathlib

/-!
# RosterLogic workforce engine — verification of the resolution core

A shallow embedding of the resolution engine of the `rosterlogic-workforce-engine`
repository, together with theorems settling the specification's claims about it.

The embedding covers:

* `findWinningRule`, `audit_inputs`, `verifyShiftOverride`, `createErrorRow` and
  `resolveEmployeeDay` from `src/Engine/Resolver.js`;
* `checkMatch` and `normalizeDay` from `src/Utils/Helpers.js`;
* the decision-matrix index construction (`buildMatrixIndex`, the wildcard
  cartesian expansion inside `loadContext`) and `parseRules` from the workspace
  processor / rules module;
* `grantEntitlements` and `revokeLedger` from `src/Engine/Ledger.js`.

Modelling conventions, applied throughout:

* JS strings are Lean `String`s.  The JS string primitives used by the source
  (`toUpperCase`, `toLowerCase`, `trim`, `includes`, `substring`, relational
  comparison of strings, `localeCompare`) are given executable Lean definitions
  (`jsUpper`, `jsLower`, `jsTrim`, `jsIncludes`, `strLt`, `strCompare`) over the
  underlying character lists, so that concrete instances evaluate inside the
  kernel.  `localeCompare` is modelled as code-point lexicographic comparison,
  which is its behaviour on the ASCII rule ids the engine uses.
* JS `Date` values never reach the core logic directly: the source always
  converts them to canonical `yyyy-MM-dd` strings via `parseSafeDate` /
  `formatDate` (out-of-core date plumbing).  Dates are therefore modelled as
  their canonical strings; an `Option String` models a `parseSafeDate` result
  that may be `null`.
* JS `Map` / `Set` objects are modelled as association lists / lists with the
  corresponding first-key lookup (`lookupAssoc`) and membership.
* Spreadsheet rows are modelled as structures whose fields are the columns the
  source reads; the header-map indirection (`mapHeaders`) is resolved away, all
  referenced columns being present.
* Numeric cell values (`Number(x) || 0`) are modelled as `Option Int`, `none`
  standing for `NaN`; scheduling weights (which take the values 0, 0.5 and 1)
  are modelled as rationals.
-/

namespace RosterLogic

/-! ## JS string primitives -/

/-- JS `String.prototype.toUpperCase` (character-wise upper-casing). -/
def jsUpper (s : String) : String := ⟨s.data.map Char.toUpper⟩

/-- JS `String.prototype.toLowerCase` (character-wise lower-casing). -/
def jsLower (s : String) : String := ⟨s.data.map Char.toLower⟩

/-- JS `String.prototype.trim`: strip leading and trailing whitespace. -/
def jsTrim (s : String) : String :=
  ⟨((s.data.dropWhile Char.isWhitespace).reverse.dropWhile Char.isWhitespace).reverse⟩

/-- Does `sub` occur as a contiguous sublist of `l`?  (Scan of all suffixes.) -/
def infixScan (sub : List Char) : List Char → Bool
  | [] => sub.isEmpty
  | b :: bs => List.isPrefixOf sub (b :: bs) || infixScan sub bs

/-- JS `String.prototype.includes` (substring occurrence). -/
def jsIncludes (s sub : String) : Bool := infixScan sub.data s.data

/-- Strict code-point lexicographic order on character lists. -/
def lexLt : List Char → List Char → Bool
  | [], [] => false
  | [], _ :: _ => true
  | _ :: _, [] => false
  | a :: as, b :: bs =>
    if a.toNat < b.toNat then true
    else if a.toNat = b.toNat then lexLt as bs
    else false

/-- JS `<` on strings (code-unit lexicographic comparison). -/
def strLt (a b : String) : Bool := lexLt a.data b.data

/-- JS `<=` / `>=` on strings; total since `strLt` is a strict total order. -/
def strLe (a b : String) : Bool := !(strLt b a)

/-- `a.localeCompare(b)` collapsed to its sign (code-point order on ASCII ids). -/
def strCompare (a b : String) : Int :=
  if strLt a b then -1 else if a == b then 0 else 1

/-! ## Helpers.js -/

/-- `normalizeDay` (Helpers.js): `d ? String(d).toUpperCase().substring(0, 3) : ""`. -/
def normalizeDay (d : String) : String :=
  if d == "" then "" else ⟨(jsUpper d).data.take 3⟩

/-- `checkMatch` (Helpers.js): wildcard-aware criterion test used by the
decision-matrix lookup.  `ANY`/`IGNORED` match anything; a `COMP_DAY` criterion
also accepts an `OFF` value; a `LEAVE` criterion accepts only `LEAVE`. -/
def checkMatch (c v : String) : Bool :=
  let c := jsTrim (jsUpper c)
  let v := jsTrim (jsUpper v)
  if c == "ANY" || c == "IGNORED" then true
  else if c == "COMP_DAY" && (v == "COMP_DAY" || v == "OFF") then true
  else if c == "LEAVE" && v == "LEAVE" then true
  else c == v

/-! ## Rules and winner selection (Resolver.js) -/

/-- A parsed scheduling rule (Resolver.js `Rule` typedef).  `start`/`end` are
canonical `yyyy-MM-dd` strings. -/
structure Rule where
  id : String
  type : String
  start : String
  «end» : String
  shift : String
  wo1 : String
  wo2 : String
  freq : String
  prio : Int
deriving Repr, DecidableEq, Inhabited

/-- The sentinel accumulator `{ prio: -1, id: '' }` that seeds the winner fold.
The source object carries only those two properties; the remaining fields are
never read while the accumulator is the sentinel, so they are modelled as
empty strings. -/
def sentinelRule : Rule :=
  { id := "", type := "", start := "", «end» := "", shift := "", wo1 := "", wo2 := "",
    freq := "", prio := -1 }

/-- One step of the `reduce` inside `findWinningRule` (Resolver.js):
an accumulator holding priority `-1` is replaced unconditionally; otherwise a
strictly higher priority wins, and on a priority tie a `localeCompare`-greater
id wins. -/
def winStep (prev curr : Rule) : Rule :=
  if prev.prio == -1 then curr
  else if prev.prio < curr.prio then curr
  else if curr.prio == prev.prio && strLt prev.id curr.id then curr
  else prev

/-- `findWinningRule` (Resolver.js): filter to one rule type, then reduce with
`winStep` from the sentinel. -/
def findWinningRule (rules : List Rule) (type : String) : Rule :=
  (rules.filter (fun r => r.type == type)).foldl winStep sentinelRule

/-- `audit_inputs` (Resolver.js): input sanitation applied while filtering
active rules.  A SHIFT_OVERRIDE rule must have a non-empty shift value after
string coercion and trimming; DAY_PATTERN rules always pass. -/
def audit_inputs (rule : Rule) : Bool :=
  if rule.type == "SHIFT_OVERRIDE" then
    if rule.shift == "" || jsTrim rule.shift == "" then false else true
  else true

/-! ## Per-cell resolution (Resolver.js `resolveEmployeeDay`) -/

/-- Employee base data (Resolver.js `Employee` typedef). -/
structure Employee where
  id : String
  display : String
  baseShift : String
  wo1 : String
  wo2 : String
deriving Repr, DecidableEq, Inhabited

/-- Date metadata (Resolver.js `DayMeta` typedef); `obj` stands for the raw
`Date` object, `str` for its canonical `yyyy-MM-dd` string and `day` for the
three-letter weekday code. -/
structure DayMeta where
  obj : String
  str : String
  day : String
deriving Repr, DecidableEq, Inhabited

/-- The mutable pair `(isWorkDay, currentShift)` threaded through the passes. -/
structure DayState where
  isWork : Bool
  shift : String
deriving Repr, DecidableEq, Inhabited

/-- Stage 1 of `resolveEmployeeDay`: base roster determination. -/
def baseState (emp : Employee) (meta : DayMeta) : DayState :=
  let baseOff := meta.day == emp.wo1 || meta.day == emp.wo2
  let baseIsWork := !baseOff && emp.baseShift != "OFF"
  ⟨baseIsWork, if baseIsWork then emp.baseShift else "OFF"⟩

/-- Stage 2 of `resolveEmployeeDay`: the active-rule filter — date window
(inclusive, string comparison), frequency, and `audit_inputs` sanitation. -/
def activeRulesFor (meta : DayMeta) (rules : List Rule) : List Rule :=
  rules.filter (fun r =>
    strLe r.start meta.str && strLe meta.str r.«end» &&
    (r.freq == "ALL" || jsIncludes r.freq meta.day) &&
    audit_inputs r)

/-- Pass 1 of `resolveEmployeeDay` (DAY_PATTERN rules, state-changing),
returning the updated state together with the trace entries it pushes. -/
def applyPass1 (emp : Employee) (meta : DayMeta) (active : List Rule)
    (st : DayState) : DayState × List String :=
  let winningWO := findWinningRule active "DAY_PATTERN"
  let wid := winningWO.id
  let wprio := toString winningWO.prio
  if winningWO.id != "" then
    let isRuleOff :=
      meta.day == normalizeDay winningWO.wo1 || meta.day == normalizeDay winningWO.wo2
    if isRuleOff then
      (⟨false, "OFF"⟩, ["[DAY_PATTERN:" ++ wid ++ ":OFF:P" ++ wprio ++ "]"])
    else
      let ruleShiftStr := jsTrim (jsUpper winningWO.shift)
      if ruleShiftStr != "OFF" && ruleShiftStr != "" then
        (⟨true, winningWO.shift⟩,
         ["[DAY_PATTERN:" ++ wid ++ ":" ++ winningWO.shift ++ ":P" ++ wprio ++ "]"])
      else if st.shift == "OFF" then
        let fb := if emp.baseShift != "OFF" then emp.baseShift else "09:00 - 18:00"
        (⟨true, fb⟩,
         ["[FIX:AppliedFallback]",
          "[DAY_PATTERN:" ++ wid ++ ":" ++ fb ++ ":P" ++ wprio ++ "]"])
      else
        (⟨true, st.shift⟩,
         ["[DAY_PATTERN:" ++ wid ++ ":" ++ st.shift ++ ":P" ++ wprio ++ "]"])
  else (st, [])

/-- Pass 2 of `resolveEmployeeDay` (SHIFT_OVERRIDE rules, attribute-changing).
The source block only ever assigns `currentShift`; `isWorkDay` is read but
never written, which the returned state reproduces. -/
def applyPass2 (emp : Employee) (active : List Rule)
    (st : DayState) : DayState × List String :=
  if st.isWork then
    let winningSHIFT := findWinningRule active "SHIFT_OVERRIDE"
    if winningSHIFT.id != "" then
      let sShift := jsTrim (jsUpper winningSHIFT.shift)
      let wid := winningSHIFT.id
      if sShift != "OFF" && sShift != "" then
        (⟨st.isWork, winningSHIFT.shift⟩,
         ["[SHIFT:" ++ wid ++ ":" ++ winningSHIFT.shift ++ ":P" ++
          toString winningSHIFT.prio ++ "]"])
      else
        (⟨st.isWork, emp.baseShift⟩, ["[SHIFT:FALLBACK_BASE:" ++ wid ++ "]"])
    else (st, [])
  else (st, [])

/-! ## Decision-matrix rows, the index and its lookup -/

/-- One parsed decision-matrix row (Resolver.js `DecisionMatrixRow` typedef);
fields are already upper-cased as `loadContext` produces them. -/
structure MatrixRow where
  base : String
  rule : String
  ph : String
  req : String
  finalStatus : String
  action : String
  reason : String
deriving Repr, DecidableEq, Inhabited

/-- First-key association-list lookup: the `Map.prototype.get` of the
context's maps (whose keys are unique by construction). -/
def lookupAssoc {α : Type} : List (String × α) → String → Option α
  | [], _ => none
  | (k', v) :: rest, k => if k' == k then some v else lookupAssoc rest k

/-- Append `v` to the bucket of key `k`, creating the bucket at the end if the
key is new: the `if (!m.has(k)) m.set(k, []); m.get(k).push(v)` idiom. -/
def pushAssoc {α : Type} : List (String × List α) → String → α → List (String × List α)
  | [], k, v => [(k, [v])]
  | (k', b) :: rest, k, v =>
    if k' == k then (k', b ++ [v]) :: rest else (k', b) :: pushAssoc rest k v

/-- Wildcard expansion of one dimension (`loadContext`): `ANY`/`IGNORED`
expands to the whole concrete domain, anything else stays itself. -/
def wildcardVals (dim : String) (domain : List String) : List String :=
  if dim == "ANY" || dim == "IGNORED" then domain else [dim]

/-- The pipe-joined composite key of the decision-matrix index. -/
def matrixKey (b r p q : String) : String :=
  b ++ "|" ++ r ++ "|" ++ p ++ "|" ++ q

/-- All index keys one row is filed under (`loadContext`'s four nested loops,
in their nesting order). -/
def expandKeys (row : MatrixRow) : List String :=
  (wildcardVals row.base ["WORK", "OFF"]).flatMap (fun b =>
    (wildcardVals row.rule ["WORK", "OFF", "NONE"]).flatMap (fun r =>
      (wildcardVals row.ph ["TRUE", "FALSE"]).flatMap (fun p =>
        (wildcardVals row.req ["NONE", "COMP_DAY", "LEAVE"]).map (fun q =>
          matrixKey b r p q))))

/-- Decision-matrix index construction (`loadContext`, section 2): every row is
pushed, in source order, into the bucket of every key of its expansion. -/
def buildMatrixIndex (rows : List MatrixRow) : List (String × List MatrixRow) :=
  rows.foldl (fun idx row => (expandKeys row).foldl (fun idx k => pushAssoc idx k row) idx) []

/-- The four-flag tuple (plus the leave and entitlement inputs derived with it)
computed by the matrix-lookup stage of `resolveEmployeeDay`. -/
structure Flags where
  baseFlag : String
  ruleFlag : String
  holidayFlag : String
  reqFlag : String
  leave : String
  entitlement : String
deriving Repr, DecidableEq, Inhabited

/-- The wildcard-aware re-check a candidate row must pass at lookup time. -/
def rowMatches (row : MatrixRow) (b r p q : String) : Bool :=
  checkMatch row.base b && checkMatch row.rule r &&
  checkMatch row.ph p && checkMatch row.req q

/-- The bucket stored under an index key — `matrixIndex.get(key) || []`. -/
def bucketOf (idx : List (String × List MatrixRow)) (k : String) : List MatrixRow :=
  (lookupAssoc idx k).getD []

/-- The resolver's matrix lookup at explicit flag values: fetch the bucket of
the exact four-flag key (empty if absent) and take the first row that passes
`rowMatches`. -/
def matrixFindKey (idx : List (String × List MatrixRow)) (b r p q : String) : Option MatrixRow :=
  (bucketOf idx (matrixKey b r p q)).find? (fun row => rowMatches row b r p q)

/-- The resolver's matrix lookup on a computed flag tuple. -/
def matrixFind (idx : List (String × List MatrixRow)) (fl : Flags) : Option MatrixRow :=
  matrixFindKey idx fl.baseFlag fl.ruleFlag fl.holidayFlag fl.reqFlag

/-- The per-run context (`EngineContext`): the matrix index, the active-ledger
snapshot (key to entitlement status), leave records (key to category) and the
holiday date set.  The shift-status `mapping` is loaded but not read by the
resolver, so it is not modelled. -/
structure EngineContext where
  matrixIndex : List (String × List MatrixRow)
  ledger : List (String × String)
  leaves : List (String × String)
  holidays : List String
deriving Repr, DecidableEq, Inhabited

/-- The matrix-lookup flag computation of `resolveEmployeeDay`: base/derived
work flags, holiday membership, then leave lookup (a non-empty leave category
forces `LEAVE`) and active-ledger lookup (a `COMP_DAY`/`OFF` status sets the
entitlement input, and sets the request flag when no leave claimed it). -/
def computeFlags (ctx : EngineContext) (key : String) (meta : DayMeta)
    (baseIsWork isWork : Bool) : Flags :=
  let derivedFlag := if isWork then "WORK" else "OFF"
  let baseFlag := if baseIsWork then "WORK" else "OFF"
  let ruleFlag := if derivedFlag == baseFlag then "NONE" else derivedFlag
  let holidayFlag := if ctx.holidays.contains meta.str then "TRUE" else "FALSE"
  let lv := lookupAssoc ctx.leaves key
  let lvHit := match lv with | some s => s != "" | none => false
  let leave := if lvHit then lv.getD "NONE" else "NONE"
  let led := lookupAssoc ctx.ledger key
  let ledHit := match led with | some st => st == "COMP_DAY" || st == "OFF" | none => false
  let entitlement := if ledHit then led.getD "NONE" else "NONE"
  let reqFlag := if lvHit then "LEAVE" else if ledHit then "COMP_DAY" else "NONE"
  ⟨baseFlag, ruleFlag, holidayFlag, reqFlag, leave, entitlement⟩

/-- The flags `resolveEmployeeDay` feeds to the matrix lookup, as a function of
its four inputs (base state, then the state after the two passes). -/
def resolveFlags (emp : Employee) (meta : DayMeta) (ctx : EngineContext)
    (rules : List Rule) : Flags :=
  let st0 := baseState emp meta
  let active := activeRulesFor meta rules
  let st1 := (applyPass1 emp meta active st0).1
  let st2 := (applyPass2 emp active st1).1
  computeFlags ctx (emp.id ++ "|" ++ meta.str) meta st0.isWork st2.isWork

/-- The 14-field audit row (`writeDailyOutput` layout). -/
structure AuditRow where
  key : String
  display : String
  obj : String
  baseFlag : String
  baseShift : String
  derivedShift : String
  leave : String
  holidayFlag : String
  entitlement : String
  finalStatus : String
  finalShift : String
  reason : String
  trace : String
  finalVal : ℚ
deriving Repr, DecidableEq, Inhabited

/-- `createErrorRow` (Resolver.js): the fallback row emitted when no decision
matches — status `ERROR`, empty final shift, weight `0`. -/
def createErrorRow (emp : Employee) (meta : DayMeta)
    (b bs r l p po err : String) : AuditRow :=
  { key := emp.id ++ "|" ++ meta.str
  , display := emp.display
  , obj := meta.obj
  , baseFlag := b
  , baseShift := bs
  , derivedShift := r
  , leave := l
  , holidayFlag := p
  , entitlement := po
  , finalStatus := "ERROR"
  , finalShift := ""
  , reason := err
  , trace := "ERROR_TRACE"
  , finalVal := 0 }

/-- `verifyShiftOverride` (Resolver.js): the mirror audit.  Recomputes the
Pass-2 winner and, on a work day with a winning non-empty shift, demands the
final shift equal it unless the final shift is `LEAVE`/`COMP_DAY`/`OFF`;
a violation yields the warning string substituted for the reason. -/
def verifyShiftOverride (isWorkDay : Bool) (finalShift : String)
    (activeRules : List Rule) : Option String :=
  if !isWorkDay then none
  else
    let winningSHIFT := findWinningRule activeRules "SHIFT_OVERRIDE"
    if winningSHIFT.id != "" && winningSHIFT.shift != "" then
      if finalShift != winningSHIFT.shift && finalShift != "LEAVE" &&
         finalShift != "COMP_DAY" && finalShift != "OFF" then
        some ("⚠️ AUDIT FAIL: Exp \"" ++ winningSHIFT.shift ++ "\" (Rule " ++
              winningSHIFT.id ++ ") but got \"" ++ finalShift ++ "\"")
      else none
    else none

/-- `Array.prototype.join(' | ')` for the trace. -/
def joinTrace : List String → String
  | [] => ""
  | [x] => x
  | x :: xs => x ++ " | " ++ joinTrace xs

/-- The result of one employee-day resolution. -/
structure Resolution where
  row : AuditRow
  entitlementAction : String
  finalStatus : String
deriving Repr, DecidableEq, Inhabited

/-- `resolveEmployeeDay` (Resolver.js): base determination, active-rule
filtering, the two passes, flag computation, matrix lookup (no match yields the
`ERROR` row as data), final value computation and the mirror audit. -/
def resolveEmployeeDay (emp : Employee) (meta : DayMeta) (ctx : EngineContext)
    (rules : List Rule) : Resolution :=
  let key := emp.id ++ "|" ++ meta.str
  let st0 := baseState emp meta
  let trace0 := ["[BASE:" ++ (if st0.isWork then "WORK" else "OFF") ++ ":" ++ st0.shift ++ "]"]
  let active := activeRulesFor meta rules
  let p1 := applyPass1 emp meta active st0
  let p2 := applyPass2 emp active p1.1
  let st2 := p2.1
  let fl := resolveFlags emp meta ctx rules
  match matrixFind ctx.matrixIndex fl with
  | none =>
    { row := createErrorRow emp meta fl.baseFlag
        (if st0.isWork then emp.baseShift else "OFF") st2.shift
        fl.leave fl.holidayFlag fl.entitlement "Missing Logic"
    , entitlementAction := "NONE"
    , finalStatus := "ERROR" }
  | some m =>
    let finalStatus := if m.finalStatus == "LEAVE" then fl.leave else m.finalStatus
    let fsv : String × ℚ :=
      if finalStatus == "WORK" then
        (st2.shift, if st2.shift == "HAL1" || st2.shift == "HAL2" then (1 : ℚ)/2 else 1)
      else if finalStatus == "COMP_DAY" then ("OFF", 1)
      else ("OFF", 0)
    let auditErr := verifyShiftOverride st2.isWork fsv.1 active
    let reasonOut := match auditErr with | some e => e | none => m.reason
    { row :=
      { key := key
      , display := emp.display
      , obj := meta.obj
      , baseFlag := fl.baseFlag
      , baseShift := if st0.isWork then emp.baseShift else "OFF"
      , derivedShift := st2.shift
      , leave := fl.leave
      , holidayFlag := fl.holidayFlag
      , entitlement := fl.entitlement
      , finalStatus := finalStatus
      , finalShift := fsv.1
      , reason := reasonOut
      , trace := joinTrace (trace0 ++ p1.2 ++ p2.2)
      , finalVal := fsv.2 }
    , entitlementAction := m.action
    , finalStatus := finalStatus }

/-! ## Rule loading and sorting (Rules.js `parseRules`) -/

/-- One raw row of the `Schedule_Rules` sheet, fields as the source reads them.
`start`/`end` are the `parseSafeDate`-then-`formatDate` results (`none` for a
missing/invalid date); `prio` is the `Number(...)` result (`none` for `NaN`);
empty strings stand for blank cells. -/
structure RawRule where
  id : String
  employee : String
  type : String
  start : Option String
  «end» : Option String
  shift : String
  wo1 : String
  wo2 : String
  freq : String
  status : String
  prio : Option Int
deriving Repr, DecidableEq, Inhabited

/-- Normalised employee key: `String(x).trim().toLowerCase()`. -/
def normEmp (s : String) : String := jsLower (jsTrim s)

/-- The rule object `parseRules` pushes for a kept raw row with valid start
date `st`: defaulted type/end/frequency/priority, raw shift and off-days. -/
def ruleOfRaw (st : String) (raw : RawRule) : Rule :=
  { id := raw.id
  , type := jsTrim (jsUpper (if raw.type == "" then "SHIFT_OVERRIDE" else raw.type))
  , start := st
  , «end» := raw.«end».getD st
  , shift := raw.shift
  , wo1 := raw.wo1
  , wo2 := raw.wo2
  , freq := jsUpper (if raw.freq == "" then "ALL" else raw.freq)
  , prio := raw.prio.getD 0 }

/-- Sort criterion 1: DAY_PATTERN (0) before SHIFT_OVERRIDE (1). -/
def typeRank (a : Rule) : Int := if a.type == "DAY_PATTERN" then 0 else 1

/-- Sort criterion 2: non-`ALL` frequency (0) before `ALL` (1). -/
def freqRank (a : Rule) : Int := if a.freq != "ALL" then 0 else 1

/-- The comparator of `parseRules`' strict hierarchy sort: type, then
frequency specificity, then descending priority, then ascending id. -/
def ruleCompare (a b : Rule) : Int :=
  if typeRank a != typeRank b then typeRank a - typeRank b
  else if freqRank a != freqRank b then freqRank a - freqRank b
  else if a.prio != b.prio then b.prio - a.prio
  else strCompare a.id b.id

/-- `ruleCompare a b <= 0`: `a` sorts no later than `b`. -/
def ruleLeB (a b : Rule) : Bool := decide (ruleCompare a b ≤ 0)

/-- Ordered insertion used to model `Array.prototype.sort`. -/
def insertBy {α : Type} (le : α → α → Bool) (x : α) : List α → List α
  | [] => [x]
  | y :: ys => if le x y then x :: y :: ys else y :: insertBy le x ys

/-- Stable insertion sort: the behaviour ECMA-262 guarantees for
`Array.prototype.sort` with a consistent comparator. -/
def sortBy {α : Type} (le : α → α → Bool) (l : List α) : List α :=
  l.foldr (insertBy le) []

/-- `parseRules` (Rules.js): keep rows whose approval status contains
`APPROVED`, with a non-empty normalised employee and a valid start date; group
the parsed rules per employee (insertion order), then sort every group with
`ruleCompare`. -/
def parseRules (rows : List RawRule) : List (String × List Rule) :=
  let grouped := rows.foldl (fun m raw =>
    if jsIncludes (jsUpper raw.status) "APPROVED" then
      match raw.start with
      | some st =>
        if normEmp raw.employee != "" then
          pushAssoc m (normEmp raw.employee) (ruleOfRaw st raw)
        else m
      | none => m
    else m) []
  grouped.map (fun kv => (kv.1, sortBy ruleLeB kv.2))

/-! ## Entitlement ledger (Ledger.js) -/

/-- One row of the `Entitlement_Ledger` sheet, with the columns the ledger
operations touch.  `dateStr` is the canonical entitlement-date string. -/
structure LedgerRow where
  employee : String
  dateStr : String
  entitlement : String
  activation : String
  note : String
  timestamp : Nat
deriving Repr, DecidableEq, Inhabited

/-- A grant intent `{employee, date}` collected from the resolver outputs. -/
structure GrantIntent where
  employee : String
  dateStr : String
deriving Repr, DecidableEq, Inhabited

/-- A revocation intent `{employee, dateStr, reason}`. -/
structure RevokeIntent where
  employee : String
  dateStr : String
  reason : String
deriving Repr, DecidableEq, Inhabited

/-- The composite ledger key: normalised employee, pipe, date string. -/
def ledgerKey (emp dateStr : String) : String := normEmp emp ++ "|" ++ dateStr

/-- The key of a stored ledger row (as both operations recompute it). -/
def rowKey (row : LedgerRow) : String := ledgerKey row.employee row.dateStr

/-- The `existing` key set `grantEntitlements` builds from the sheet: one key
per row whose normalised employee is non-empty (rows with an empty normalised
employee are skipped by the `if (l && dt)` guard). -/
def existingKeys (ledger : List LedgerRow) : List String :=
  ledger.foldl (fun acc row =>
    if normEmp row.employee != "" then acc ++ [rowKey row] else acc) []

/-- One iteration of `grantEntitlements`' `grants.forEach`: skip an intent
whose key is already in the `existing` set, otherwise stage a fresh row —
entitlement `COMP_DAY`, activation `Active`, timestamp `now` — and add the
key to the set. -/
def grantStep (now : Nat) (st : List String × List LedgerRow)
    (g : GrantIntent) : List String × List LedgerRow :=
  let k := ledgerKey g.employee g.dateStr
  if st.1.contains k then st
  else (st.1 ++ [k], st.2 ++ [⟨g.employee, g.dateStr, "COMP_DAY", "Active", "", now⟩])

/-- `grantEntitlements` (Ledger.js): fold `grantStep` over the intents,
starting from the sheet's existing-key set; staged rows are appended after the
current sheet contents. -/
def grantEntitlements (now : Nat) (ledger : List LedgerRow)
    (grants : List GrantIntent) : List LedgerRow :=
  ledger ++ (grants.foldl (grantStep now) (existingKeys ledger, [])).2

/-- The key-to-reason map `new Map(revocations.map(...))` builds; a later
intent for the same key overwrites an earlier one, hence the reversed lookup. -/
def revokeReasonMap (revocations : List RevokeIntent) : List (String × String) :=
  revocations.map (fun r => (ledgerKey r.employee r.dateStr, r.reason))

/-- `Map.prototype.get` for a map built from a pair list: last binding wins. -/
def mapGet (pairs : List (String × String)) (k : String) : Option String :=
  (pairs.reverse.find? (fun p => p.1 == k)).map (fun p => p.2)

/-- The per-row update of `revokeLedger`: rows with an empty normalised
employee are skipped; a row whose key is in the revocation map and whose
activation is not the literal `"Inactive"` gets activation `Inactive` and the
reason-derived note; every other row is untouched. -/
def revokeOne (revMap : List (String × String)) (row : LedgerRow) : LedgerRow :=
  if normEmp row.employee == "" then row
  else
    match mapGet revMap (rowKey row) with
    | none => row
    | some reason =>
      if row.activation != "Inactive" then
        { row with
          activation := "Inactive"
          note := if reason == "COMP_DAY" then "Comp Day Consumed"
                  else "Revoked: Work/Rule Change" }
      else row

/-- `revokeLedger` (Ledger.js): apply `revokeOne` to every sheet row; only the
activation and note columns are ever written. -/
def revokeLedger (ledger : List LedgerRow) (revocations : List RevokeIntent) : List LedgerRow :=
  ledger.map (revokeOne (revokeReasonMap revocations))

/-- A ledger batch operation, for stating invariants over arbitrary sequences
of grant and revoke runs. -/
inductive LedgerOp where
  | grant (now : Nat) (grants : List GrantIntent)
  | revoke (revocations : List RevokeIntent)
deriving Repr, DecidableEq, Inhabited

/-- Apply one ledger operation. -/
def applyOp (ledger : List LedgerRow) : LedgerOp → List LedgerRow
  | .grant now grants => grantEntitlements now ledger grants
  | .revoke revocations => revokeLedger ledger revocations

/-- Apply a sequence of ledger operations left to right. -/
def applyOps (ledger : List LedgerRow) (ops : List LedgerOp) : List LedgerRow :=
  ops.foldl applyOp ledger

/-- The number of ledger rows bearing a given composite key. -/
def countKey (ledger : List LedgerRow) (k : String) : Nat :=
  (ledger.filter (fun row => rowKey row == k)).length

/-! ## Derived predicates used in the claim statements -/

/-- Non-strict id order used to phrase tie-breaking statements. -/
def idLe (a b : String) : Prop := strLt a b = true ∨ a = b

/-- `s` is dominated by `r` in the winner order: lower priority, or equal
priority with an id that is no greater. -/
def domBy (s r : Rule) : Prop :=
  s.prio ≤ r.prio ∧ (s.prio = r.prio → idLe s.id r.id)

/-- The (amended) sort order `parseRules` establishes inside each employee's
rule list: DAY_PATTERN before SHIFT_OVERRIDE, then non-`ALL` frequency before
`ALL`, then higher priority first, then ascending id. -/
def ruleOrd (a b : Rule) : Prop :=
  typeRank a < typeRank b ∨ (typeRank a = typeRank b ∧
    (freqRank a < freqRank b ∨ (freqRank a = freqRank b ∧
      (b.prio < a.prio ∨ (a.prio = b.prio ∧ idLe a.id b.id)))))

/-- Admissible values of the `Base_Schedule` dimension of a decision row. -/
def wfBase : List String := ["WORK", "OFF", "ANY", "IGNORED"]

/-- Admissible values of the `Rule_Impact` dimension of a decision row. -/
def wfRule : List String := ["WORK", "OFF", "NONE", "ANY", "IGNORED"]

/-- Admissible values of the `Holiday_Flag` dimension of a decision row. -/
def wfPh : List String := ["TRUE", "FALSE", "ANY", "IGNORED"]

/-- Admissible values of the `Request_Type` dimension of a decision row. -/
def wfReq : List String := ["NONE", "COMP_DAY", "LEAVE", "ANY", "IGNORED"]

/-- A decision row drawn from the documented domains (§6 of the spec):
every dimension is a concrete domain value or a wildcard. -/
def wfRow (row : MatrixRow) : Prop :=
  row.base ∈ wfBase ∧ row.rule ∈ wfRule ∧ row.ph ∈ wfPh ∧ row.req ∈ wfReq

instance (row : MatrixRow) : Decidable (wfRow row) := by
  unfold wfRow; infer_instance

/-- Every ledger row has a non-empty normalised employee. -/
def GoodLedger (L : List LedgerRow) : Prop :=
  ∀ row ∈ L, normEmp row.employee ≠ ""

/-- No two ledger rows share a composite key. -/
def UniqKeys (L : List LedgerRow) : Prop :=
  L.Pairwise (fun a b => rowKey a ≠ rowKey b)

instance (L : List LedgerRow) : Decidable (GoodLedger L) := by
  unfold GoodLedger; infer_instance

instance (L : List LedgerRow) : Decidable (UniqKeys L) := by
  unfold UniqKeys; infer_instance

/-- A batch operation whose grant intents all carry a non-empty normalised
employee (revocations are unrestricted). -/
def goodOp : LedgerOp → Prop
  | .grant _ gs => ∀ g ∈ gs, normEmp g.employee ≠ ""
  | .revoke _ => True

instance (op : LedgerOp) : Decidable (goodOp op) := by
  cases op with
  | grant now gs => exact inferInstanceAs (Decidable (∀ g ∈ gs, normEmp g.employee ≠ ""))
  | revoke revs => exact inferInstanceAs (Decidable True)

/-! ## Concrete instances for witnesses and counterexamples -/

/-- A DAY_PATTERN rule of priority `-1` (the sentinel priority). -/
def cexC1A : Rule :=
  ⟨"A", "DAY_PATTERN", "2025-01-01", "2025-12-31", "", "WED", "THU", "ALL", -1⟩

/-- A DAY_PATTERN rule of priority `-2`, id-wise smaller than `cexC1A`. -/
def cexC1B : Rule :=
  ⟨"B", "DAY_PATTERN", "2025-01-01", "2025-12-31", "", "WED", "THU", "ALL", -2⟩

/-- A DAY_PATTERN rule of priority 5. -/
def wRuleA : Rule :=
  ⟨"R-001", "DAY_PATTERN", "2025-01-01", "2025-06-30", "", "WED", "THU", "ALL", 5⟩

/-- A DAY_PATTERN rule of priority 3. -/
def wRuleB : Rule :=
  ⟨"R-002", "DAY_PATTERN", "2025-01-01", "2025-06-30", "", "FRI", "SAT", "ALL", 3⟩

/-- A SHIFT_OVERRIDE rule whose shift value upper-trims to `OFF`. -/
def wRuleOff : Rule :=
  ⟨"R-003", "SHIFT_OVERRIDE", "2025-01-01", "2025-12-31", "off ", "", "", "ALL", 2⟩

/-- A SHIFT_OVERRIDE rule with a normal shift value. -/
def wRuleShift : Rule :=
  ⟨"R-004", "SHIFT_OVERRIDE", "2025-01-01", "2025-12-31", "10:00 - 19:00", "", "", "ALL", 8⟩

/-- The §8 sample employee: weekend off, 09:00–18:00 base shift. -/
def wEmp : Employee := ⟨"emp-1042", "emp-1042", "09:00 - 18:00", "SAT", "SUN"⟩

/-- A Monday cell. -/
def wMeta : DayMeta := ⟨"2025-03-03T00:00:00", "2025-03-03", "MON"⟩

/-- A context with an empty decision-matrix index (everything else empty). -/
def wCtxEmpty : EngineContext := ⟨[], [], [], []⟩

/-- The regular-workday decision row. -/
def wRowWork : MatrixRow :=
  ⟨"WORK", "NONE", "FALSE", "NONE", "WORK", "NONE", "Regular Day"⟩

/-- A wildcard leave row `(ANY, ANY, ANY, LEAVE) → (LEAVE, NONE)`. -/
def wRowLeave : MatrixRow :=
  ⟨"ANY", "ANY", "ANY", "LEAVE", "LEAVE", "NONE", "Leave Requested"⟩

/-- A raw SHIFT_OVERRIDE rule whose shift cell is blank after trimming. -/
def cexRaw7 : RawRule :=
  ⟨"R-010", "emp-1042", "SHIFT_OVERRIDE", some "2025-01-01", some "2025-12-31",
   " ", "", "", "ALL", "Approved", some 4⟩

/-- An approved raw DAY_PATTERN rule with id `A`. -/
def cexRaw8A : RawRule :=
  ⟨"A", "emp-1042", "DAY_PATTERN", some "2025-01-01", some "2025-12-31",
   "", "WED", "THU", "ALL", "Approved", some 5⟩

/-- The same raw rule with id `B`: a full priority tie against `cexRaw8A`. -/
def cexRaw8B : RawRule :=
  ⟨"B", "emp-1042", "DAY_PATTERN", some "2025-01-01", some "2025-12-31",
   "", "WED", "THU", "ALL", "Approved", some 5⟩

/-- The parsed form of `cexRaw8A`. -/
def cexRule8A : Rule := ruleOfRaw "2025-01-01" cexRaw8A

/-- The parsed form of `cexRaw8B`. -/
def cexRule8B : Rule := ruleOfRaw "2025-01-01" cexRaw8B

/-- A grant intent whose employee cell is a lone space: its normalised
employee is empty. -/
def cexGrantBlank : GrantIntent := ⟨" ", "2025-01-01"⟩

/-- A well-formed grant intent. -/
def wGrant : GrantIntent := ⟨"Emp-1042", "2025-03-08"⟩

/-- An active ledger row matching `wGrant`'s key. -/
def wLedgerRow : LedgerRow := ⟨"Emp-1042", "2025-03-08", "COMP_DAY", "Active", "", 7⟩

/-- A revocation intent for `wLedgerRow`'s key with reason `COMP_DAY`. -/
def wRevoke : RevokeIntent := ⟨"emp-1042 ", "2025-03-08", "COMP_DAY"⟩

/-- A ledger whose single row has a blank employee cell (its normalised
employee is empty, so `grantEntitlements` cannot see its key). -/
def cexLedger9 : List LedgerRow := [⟨" ", "2025-01-01", "COMP_DAY", "Active", "", 0⟩]

/-! ## Order lemmas for the string primitives -/

theorem char_toNat_inj {a b : Char} (h : a.toNat = b.toNat) : a = b := by
  have hv : a.val = b.val := by
    have : a.val.toNat = b.val.toNat := h
    exact UInt32.eq_of_val_eq (Fin.ext this)
  exact Char.eq_of_val_eq hv

theorem lexLt_irrefl : ∀ l : List Char, lexLt l l = false
  | [] => rfl
  | a :: as => by simp [lexLt, lexLt_irrefl as]

theorem lexLt_asymm : ∀ {a b : List Char}, lexLt a b = true → lexLt b a = false
  | [], [], h => by simp [lexLt] at h
  | [], _ :: _, _ => rfl
  | _ :: _, [], h => by simp [lexLt] at h
  | x :: xs, y :: ys, h => by
    simp only [lexLt] at h ⊢
    by_cases h1 : x.toNat < y.toNat
    · have h2 : ¬ y.toNat < x.toNat := by omega
      have h3 : ¬ y.toNat = x.toNat := by omega
      rw [if_neg h2, if_neg h3]
    · by_cases h2 : x.toNat = y.toNat
      · rw [if_neg h1, if_pos h2] at h
        have h3 : ¬ y.toNat < x.toNat := by omega
        have h4 : y.toNat = x.toNat := h2.symm
        rw [if_neg h3, if_pos h4, lexLt_asymm h]
      · rw [if_neg h1, if_neg h2] at h
        exact absurd h (by simp)

theorem lexLt_connex : ∀ {a b : List Char}, lexLt a b = false → lexLt b a = false → a = b
  | [], [], _, _ => rfl
  | [], _ :: _, h, _ => by simp [lexLt] at h
  | _ :: _, [], _, h => by simp [lexLt] at h
  | x :: xs, y :: ys, h, h' => by
    simp only [lexLt] at h h'
    by_cases h1 : x.toNat < y.toNat
    · simp [h1] at h
    · by_cases h2 : x.toNat = y.toNat
      · have hx : x = y := char_toNat_inj h2
        rw [if_neg h1, if_pos h2] at h
        have h3 : ¬ y.toNat < x.toNat := by omega
        have h4 : y.toNat = x.toNat := h2.symm
        rw [if_neg h3, if_pos h4] at h'
        rw [hx, lexLt_connex h h']
      · have h3 : y.toNat < x.toNat := by omega
        rw [if_pos h3] at h'
        exact absurd h' (by simp)

theorem lexLt_trans : ∀ {a b c : List Char},
    lexLt a b = true → lexLt b c = true → lexLt a c = true
  | [], [], _, h, _ => by simp [lexLt] at h
  | [], _ :: _, [], _, h => by simp [lexLt] at h
  | [], _ :: _, _ :: _, _, _ => rfl
  | _ :: _, [], _, h, _ => by simp [lexLt] at h
  | _ :: _, _ :: _, [], _, h => by simp [lexLt] at h
  | x :: xs, y :: ys, z :: zs, h, h' => by
    simp only [lexLt] at h h' ⊢
    by_cases h1 : x.toNat < y.toNat
    · by_cases h2 : y.toNat < z.toNat
      · have : x.toNat < z.toNat := by omega
        simp [this]
      · by_cases h3 : y.toNat = z.toNat
        · have : x.toNat < z.toNat := by omega
          simp [this]
        · simp [h2, h3] at h'
    · by_cases h2 : x.toNat = y.toNat
      · rw [if_neg h1, if_pos h2] at h
        by_cases h3 : y.toNat < z.toNat
        · have : x.toNat < z.toNat := by omega
          simp [this]
        · by_cases h4 : y.toNat = z.toNat
          · rw [if_neg h3, if_pos h4] at h'
            have h5 : ¬ x.toNat < z.toNat := by omega
            have h6 : x.toNat = z.toNat := by omega
            rw [if_neg h5, if_pos h6, lexLt_trans h h']
          · rw [if_neg h3, if_neg h4] at h'
            exact absurd h' (by simp)
      · rw [if_neg h1, if_neg h2] at h
        exact absurd h (by simp)

theorem string_data_inj {a b : String} (h : a.data = b.data) : a = b := by
  cases a; cases b; exact congrArg String.mk h

theorem strLt_irrefl (a : String) : strLt a a = false := lexLt_irrefl a.data

theorem strLt_asymm {a b : String} (h : strLt a b = true) : strLt b a = false :=
  lexLt_asymm h

theorem strLt_connex {a b : String} (h : strLt a b = false) (h' : strLt b a = false) :
    a = b :=
  string_data_inj (lexLt_connex h h')

theorem strLt_trans {a b c : String} (h : strLt a b = true) (h' : strLt b c = true) :
    strLt a c = true :=
  lexLt_trans h h'

theorem idLe_refl (a : String) : idLe a a := Or.inr rfl

theorem idLe_trans {a b c : String} (h : idLe a b) (h' : idLe b c) : idLe a c := by
  rcases h with h | rfl
  · rcases h' with h' | rfl
    · exact Or.inl (strLt_trans h h')
    · exact Or.inl h
  · exact h'

theorem idLe_antisymm {a b : String} (h : idLe a b) (h' : idLe b a) : a = b := by
  rcases h with h | rfl
  · rcases h' with h' | rfl
    · exact absurd (strLt_asymm h) (by simp [h'])
    · rfl
  · rfl

theorem idLe_total (a b : String) : idLe a b ∨ idLe b a := by
  by_cases h : strLt a b = true
  · exact Or.inl (Or.inl h)
  · by_cases h' : strLt b a = true
    · exact Or.inr (Or.inl h')
    · exact Or.inl (Or.inr (strLt_connex (by simpa using h) (by simpa using h')))

/-! ## Winner-selection lemmas (`findWinningRule`) -/

theorem domBy_refl (a : Rule) : domBy a a := ⟨le_refl _, fun _ => idLe_refl _⟩

theorem domBy_trans {a b c : Rule} (h : domBy a b) (h' : domBy b c) : domBy a c := by
  refine ⟨le_trans h.1 h'.1, fun he => ?_⟩
  have hab : a.prio = b.prio := by have := h.1; have := h'.1; omega
  have hbc : b.prio = c.prio := by omega
  exact idLe_trans (h.2 hab) (h'.2 hbc)

theorem winStep_sentinel (c : Rule) : winStep sentinelRule c = c := by
  simp [winStep, sentinelRule]

theorem winStep_cases (prev curr : Rule) :
    winStep prev curr = prev ∨ winStep prev curr = curr := by
  unfold winStep
  by_cases h0 : (prev.prio == -1) = true
  · rw [if_pos h0]; exact Or.inr rfl
  · rw [if_neg h0]
    by_cases h1 : prev.prio < curr.prio
    · rw [if_pos h1]; exact Or.inr rfl
    · rw [if_neg h1]
      by_cases h2 : (curr.prio == prev.prio && strLt prev.id curr.id) = true
      · rw [if_pos h2]; exact Or.inr rfl
      · rw [if_neg h2]; exact Or.inl rfl

theorem winStep_domBy {prev curr : Rule} (h : prev.prio ≠ -1) :
    domBy prev (winStep prev curr) ∧ domBy curr (winStep prev curr) := by
  unfold winStep
  rw [if_neg (by simpa using h)]
  by_cases h1 : prev.prio < curr.prio
  · rw [if_pos h1]
    exact ⟨⟨le_of_lt h1, fun he => absurd he (by omega)⟩, domBy_refl curr⟩
  · rw [if_neg h1]
    by_cases h2 : (curr.prio == prev.prio && strLt prev.id curr.id) = true
    · rw [if_pos h2]
      rw [Bool.and_eq_true] at h2
      obtain ⟨h2a, h2b⟩ := h2
      have heq : curr.prio = prev.prio := beq_iff_eq.mp h2a
      exact ⟨⟨le_of_eq heq.symm, fun _ => Or.inl h2b⟩, domBy_refl curr⟩
    · rw [if_neg h2]
      refine ⟨domBy_refl prev, le_of_not_lt h1, fun he => ?_⟩
      have hlt : strLt prev.id curr.id = false := by
        by_contra hc
        refine h2 ?_
        rw [Bool.and_eq_true]
        exact ⟨beq_iff_eq.mpr he, by simpa using hc⟩
      by_cases hlt' : strLt curr.id prev.id = true
      · exact Or.inl hlt'
      · exact Or.inr (strLt_connex (by simpa using hlt') hlt)

theorem foldl_winStep_spec : ∀ (l : List Rule) (acc : Rule), 0 ≤ acc.prio →
    (∀ r ∈ l, 0 ≤ r.prio) →
    (l.foldl winStep acc = acc ∨ l.foldl winStep acc ∈ l) ∧
    0 ≤ (l.foldl winStep acc).prio ∧
    domBy acc (l.foldl winStep acc) ∧
    ∀ s ∈ l, domBy s (l.foldl winStep acc)
  | [], acc, hacc, _ => by
    refine ⟨Or.inl rfl, hacc, domBy_refl acc, fun s hs => absurd hs (List.not_mem_nil s)⟩
  | a :: l, acc, hacc, hl => by
    have hane : acc.prio ≠ -1 := by omega
    have hstep := @winStep_domBy acc a hane
    have hacc' : 0 ≤ (winStep acc a).prio := by
      rcases winStep_cases acc a with h | h
      · rw [h]; exact hacc
      · rw [h]; exact hl a (List.mem_cons_self a l)
    have ih := foldl_winStep_spec l (winStep acc a) hacc'
      (fun r hr => hl r (List.mem_cons_of_mem a hr))
    rw [List.foldl_cons]
    refine ⟨?_, ih.2.1, domBy_trans hstep.1 ih.2.2.1, fun s hs => ?_⟩
    · rcases ih.1 with h | h
      · rcases winStep_cases acc a with h' | h'
        · exact Or.inl (h.trans h')
        · exact Or.inr (by rw [h, h']; exact List.mem_cons_self a l)
      · exact Or.inr (List.mem_cons_of_mem a h)
    · rcases List.mem_cons.mp hs with rfl | hs
      · exact domBy_trans hstep.2 ih.2.2.1
      · exact ih.2.2.2 s hs

theorem findWinningRule_spec (l : List Rule) (t : String)
    (hpos : ∀ r ∈ l, 0 ≤ r.prio)
    (hne : l.filter (fun r => r.type == t) ≠ []) :
    findWinningRule l t ∈ l.filter (fun r => r.type == t) ∧
    ∀ s ∈ l.filter (fun r => r.type == t), domBy s (findWinningRule l t) := by
  unfold findWinningRule
  rcases hf : l.filter (fun r => r.type == t) with _ | ⟨a, rest⟩
  · exact absurd hf hne
  · have hmem : ∀ r ∈ a :: rest, 0 ≤ r.prio := by
      intro r hr
      exact hpos r (List.mem_of_mem_filter (hf ▸ hr))
    have ha : 0 ≤ a.prio := hmem a (List.mem_cons_self a rest)
    have spec := foldl_winStep_spec rest a ha
      (fun r hr => hmem r (List.mem_cons_of_mem a hr))
    rw [hf, List.foldl_cons, winStep_sentinel]
    refine ⟨?_, fun s hs => ?_⟩
    · rcases spec.1 with h | h
      · rw [h]; exact List.mem_cons_self a rest
      · exact List.mem_cons_of_mem a h
    · rcases List.mem_cons.mp hs with rfl | hs
      · exact spec.2.2.1
      · exact spec.2.2.2 s hs

theorem max_key_unique {f : List Rule} {r1 r2 : Rule}
    (hdist : f.Pairwise (fun a b => (a.prio, a.id) ≠ (b.prio, b.id)))
    (h1 : r1 ∈ f) (h2 : r2 ∈ f)
    (hd1 : domBy r2 r1) (hd2 : domBy r1 r2) : r1 = r2 := by
  have hp : r1.prio = r2.prio := le_antisymm hd2.1 hd1.1
  have hid : r1.id = r2.id := idLe_antisymm (hd2.2 hp) (hd1.2 hp.symm)
  by_contra hne
  have hsymm : Symmetric (fun a b : Rule => (a.prio, a.id) ≠ (b.prio, b.id)) := by
    intro a b h h'
    exact h h'.symm
  exact (hdist.forall hsymm h1 h2 hne) (by rw [hp, hid])

/-- **C10.**  On rule lists whose priorities are all non-negative (so that the
`-1` sentinel of the fold can never be confused with a real rule), and whose
filtered kind is non-empty, `findWinningRule` returns a rule of the requested
kind from the list that is maximal for priority, with ties broken towards the
lexicographically greatest id; and whenever the `(priority, id)` pairs of the
rules of that kind are pairwise distinct, the result is invariant under any
permutation of the rule list. -/
theorem findWinningRule_max_and_perm_invariant (l : List Rule) (t : String)
    (hpos : ∀ r ∈ l, 0 ≤ r.prio)
    (hne : l.filter (fun r => r.type == t) ≠ []) :
    (findWinningRule l t ∈ l.filter (fun r => r.type == t) ∧
      ∀ s ∈ l.filter (fun r => r.type == t),
        s.prio ≤ (findWinningRule l t).prio ∧
          (s.prio = (findWinningRule l t).prio → idLe s.id (findWinningRule l t).id)) ∧
    ∀ l' : List Rule, l.Perm l' →
      (l.filter (fun r => r.type == t)).Pairwise
        (fun a b => (a.prio, a.id) ≠ (b.prio, b.id)) →
      findWinningRule l' t = findWinningRule l t := by
  obtain ⟨hmem, hmax⟩ := findWinningRule_spec l t hpos hne
  refine ⟨⟨hmem, fun s hs => hmax s hs⟩, fun l' hperm hdist => ?_⟩
  have hpf : (l.filter (fun r => r.type == t)).Perm (l'.filter (fun r => r.type == t)) :=
    hperm.filter _
  have hpos' : ∀ r ∈ l', 0 ≤ r.prio := fun r hr => hpos r (hperm.mem_iff.mpr hr)
  have hne' : l'.filter (fun r => r.type == t) ≠ [] := by
    intro h
    exact hne (List.Perm.eq_nil (h ▸ hpf))
  obtain ⟨hmem', hmax'⟩ := findWinningRule_spec l' t hpos' hne'
  exact max_key_unique hdist (hpf.mem_iff.mpr hmem') hmem
    (hmax' (findWinningRule l t) (hpf.mem_iff.mp hmem))
    (hmax (findWinningRule l' t) (hpf.mem_iff.mpr hmem'))

/-- Witness for `findWinningRule_max_and_perm_invariant`: among the two
concrete DAY_PATTERN rules of priorities 5 and 3, the priority-5 rule wins and
the winner is unchanged under swapping the list. -/
theorem findWinningRule_max_witness :
    findWinningRule [wRuleA, wRuleB] "DAY_PATTERN" ∈
      List.filter (fun r => r.type == "DAY_PATTERN") [wRuleA, wRuleB] ∧
    findWinningRule [wRuleB, wRuleA] "DAY_PATTERN" =
      findWinningRule [wRuleA, wRuleB] "DAY_PATTERN" := by
  have h := findWinningRule_max_and_perm_invariant [wRuleA, wRuleB] "DAY_PATTERN"
    (by decide) (by decide)
  exact ⟨h.1.1, h.2 [wRuleB, wRuleA] (List.Perm.swap wRuleB wRuleA []) (by decide)⟩

/-- **C1, counterexample.**  Two active DAY_PATTERN rules with priorities
`-1 > -2`: presented in that order, `findWinningRule` returns the *lower*
priority rule, because the accumulator (then holding the genuine priority-`-1`
rule) is indistinguishable from the sentinel and is overwritten
unconditionally.  This refutes the claim for unrestricted numeric priorities. -/
theorem priority_law_counterexample :
    cexC1B.prio < cexC1A.prio ∧
    cexC1A.type = "DAY_PATTERN" ∧ cexC1B.type = "DAY_PATTERN" ∧
    findWinningRule [cexC1A, cexC1B] "DAY_PATTERN" = cexC1B ∧
    cexC1B ≠ cexC1A := by
  refine ⟨by decide, rfl, rfl, by decide, by decide⟩

/-- **C1, amended.**  For two active rules of one kind whose higher (or tied)
priority is not the sentinel value `-1`, the rule with the higher priority wins
regardless of list order, and on a priority tie the rule with the
lexicographically greater id wins regardless of list order. -/
theorem priority_law (a b : Rule) (t : String)
    (ha : a.type = t) (hb : b.type = t) (hs : a.prio ≠ -1)
    (h : b.prio < a.prio ∨ (a.prio = b.prio ∧ strLt b.id a.id = true)) :
    findWinningRule [a, b] t = a ∧ findWinningRule [b, a] t = a := by
  have hfa : (a.type == t) = true := by rw [ha]; exact beq_self_eq_true t
  have hfb : (b.type == t) = true := by rw [hb]; exact beq_self_eq_true t
  have hab : List.filter (fun r => r.type == t) [a, b] = [a, b] := by
    simp [List.filter, hfa, hfb]
  have hba : List.filter (fun r => r.type == t) [b, a] = [b, a] := by
    simp [List.filter, hfa, hfb]
  constructor
  · show (List.filter (fun r => r.type == t) [a, b]).foldl winStep sentinelRule = a
    rw [hab]
    show winStep (winStep sentinelRule a) b = a
    rw [winStep_sentinel]
    unfold winStep
    rw [if_neg (by simpa using hs)]
    rcases h with h | ⟨h1, h2⟩
    · rw [if_neg (by omega), if_neg ?_]
      simp only [Bool.and_eq_true, beq_iff_eq]
      rintro ⟨h', -⟩
      omega
    · rw [if_neg (by omega), if_neg ?_]
      simp only [Bool.and_eq_true, beq_iff_eq]
      rintro ⟨-, h'⟩
      rw [strLt_asymm h2] at h'
      exact Bool.false_ne_true h'
  · show (List.filter (fun r => r.type == t) [b, a]).foldl winStep sentinelRule = a
    rw [hba]
    show winStep (winStep sentinelRule b) a = a
    rw [winStep_sentinel]
    unfold winStep
    by_cases hbs : (b.prio == -1) = true
    · rw [if_pos hbs]
    · rcases h with h | ⟨h1, h2⟩
      · rw [if_neg hbs, if_pos h]
      · rw [if_neg hbs, if_neg (by omega), if_pos ?_]
        rw [Bool.and_eq_true]
        exact ⟨beq_iff_eq.mpr h1, h2⟩

/-- Witness for `priority_law`: with concrete priorities 5 and 3, rule `R-001`
wins in both list orders. -/
theorem priority_law_witness :
    findWinningRule [wRuleA, wRuleB] "DAY_PATTERN" = wRuleA ∧
    findWinningRule [wRuleB, wRuleA] "DAY_PATTERN" = wRuleA := by
  exact priority_law wRuleA wRuleB "DAY_PATTERN" rfl rfl (by decide)
    (Or.inl (by decide))

/-! ## Pass 2 and the ERROR path of the resolver -/

/-- **C2.**  If the state entering Pass 2 is WORK, the state after Pass 2 is
still WORK — the SHIFT_OVERRIDE pass assigns only the shift attribute — and a
winning SHIFT_OVERRIDE rule whose shift value upper-trims to `OFF` or to the
empty string only makes the shift fall back to the employee's `baseShift`. -/
theorem shift_override_never_off (emp : Employee) (active : List Rule)
    (st : DayState) (h : st.isWork = true) :
    (applyPass2 emp active st).1.isWork = true ∧
    ((findWinningRule active "SHIFT_OVERRIDE").id ≠ "" →
      (jsTrim (jsUpper (findWinningRule active "SHIFT_OVERRIDE").shift) = "OFF" ∨
        jsTrim (jsUpper (findWinningRule active "SHIFT_OVERRIDE").shift) = "") →
      (applyPass2 emp active st).1.shift = emp.baseShift) := by
  unfold applyPass2
  rw [h]
  simp only [if_true]
  by_cases hid : ((findWinningRule active "SHIFT_OVERRIDE").id != "") = true
  · rw [if_pos hid]
    by_cases hs : ((jsTrim (jsUpper (findWinningRule active "SHIFT_OVERRIDE").shift) != "OFF") &&
        (jsTrim (jsUpper (findWinningRule active "SHIFT_OVERRIDE").shift) != "")) = true
    · rw [if_pos hs]
      refine ⟨rfl, fun _ hoff => ?_⟩
      rw [Bool.and_eq_true] at hs
      rcases hoff with hoff | hoff
      · exact absurd hoff (by simpa using hs.1)
      · exact absurd hoff (by simpa using hs.2)
    · rw [if_neg hs]
      exact ⟨rfl, fun _ _ => rfl⟩
  · rw [if_neg hid]
    refine ⟨h, fun hne _ => ?_⟩
    exact absurd (by simpa using hid) hne

/-- Witness for `shift_override_never_off`: a work-state cell with an active
SHIFT_OVERRIDE winner whose shift value is `"off "` keeps the day WORK and
falls back to the base shift. -/
theorem shift_override_never_off_witness :
    (applyPass2 wEmp [wRuleOff] ⟨true, "09:00 - 18:00"⟩).1.isWork = true ∧
    (applyPass2 wEmp [wRuleOff] ⟨true, "09:00 - 18:00"⟩).1.shift = wEmp.baseShift := by
  have h := shift_override_never_off wEmp [wRuleOff] ⟨true, "09:00 - 18:00"⟩ rfl
  exact ⟨h.1, h.2 (by decide) (by decide)⟩

/-- **C3.**  When the matrix lookup finds no candidate row for the computed
flags, `resolveEmployeeDay` returns (as data, being a total function) a result
with final status `ERROR`, entitlement action `NONE`, and an audit row with
status `ERROR`, empty final shift, reason `Missing Logic` and weight `0`. -/
theorem missing_logic_error (emp : Employee) (meta : DayMeta)
    (ctx : EngineContext) (rules : List Rule)
    (h : matrixFind ctx.matrixIndex (resolveFlags emp meta ctx rules) = none) :
    (resolveEmployeeDay emp meta ctx rules).finalStatus = "ERROR" ∧
    (resolveEmployeeDay emp meta ctx rules).entitlementAction = "NONE" ∧
    (resolveEmployeeDay emp meta ctx rules).row.finalStatus = "ERROR" ∧
    (resolveEmployeeDay emp meta ctx rules).row.finalShift = "" ∧
    (resolveEmployeeDay emp meta ctx rules).row.reason = "Missing Logic" ∧
    (resolveEmployeeDay emp meta ctx rules).row.trace = "ERROR_TRACE" ∧
    (resolveEmployeeDay emp meta ctx rules).row.finalVal = 0 := by
  unfold resolveEmployeeDay
  simp [h, createErrorRow]

/-- Witness for `missing_logic_error`: against an empty decision-matrix index,
the §8 sample employee's Monday resolves to the `ERROR` row. -/
theorem missing_logic_witness :
    matrixFind wCtxEmpty.matrixIndex (resolveFlags wEmp wMeta wCtxEmpty []) = none ∧
    (resolveEmployeeDay wEmp wMeta wCtxEmpty []).finalStatus = "ERROR" ∧
    (resolveEmployeeDay wEmp wMeta wCtxEmpty []).row.finalShift = "" ∧
    (resolveEmployeeDay wEmp wMeta wCtxEmpty []).row.reason = "Missing Logic" ∧
    (resolveEmployeeDay wEmp wMeta wCtxEmpty []).row.finalVal = 0 := by
  have h := missing_logic_error wEmp wMeta wCtxEmpty [] rfl
  exact ⟨rfl, h.1, h.2.2.2.1, h.2.2.2.2.1, h.2.2.2.2.2.2⟩

/-! ## Decision-matrix index lemmas -/

theorem bucketOf_pushAssoc (idx : List (String × List MatrixRow)) (kp : String)
    (v : MatrixRow) (k : String) :
    bucketOf (pushAssoc idx kp v) k =
      bucketOf idx k ++ (if kp = k then [v] else []) := by
  induction idx with
  | nil =>
    by_cases h : kp = k
    · subst h
      simp [pushAssoc, bucketOf, lookupAssoc]
    · simp [pushAssoc, bucketOf, lookupAssoc, h]
  | cons hd rest ih =>
    obtain ⟨k', b⟩ := hd
    by_cases h1 : k' = kp
    · subst h1
      rw [show pushAssoc ((k', b) :: rest) k' v = (k', b ++ [v]) :: rest by
        simp [pushAssoc]]
      by_cases h2 : k' = k
      · subst h2
        simp [bucketOf, lookupAssoc]
      · simp [bucketOf, lookupAssoc, h2]
    · rw [show pushAssoc ((k', b) :: rest) kp v = (k', b) :: pushAssoc rest kp v by
        simp [pushAssoc, h1]]
      by_cases h2 : k' = k
      · subst h2
        have hne : ¬ kp = k' := fun he => h1 he.symm
        simp [bucketOf, lookupAssoc, hne]
      · simp only [bucketOf, lookupAssoc] at ih ⊢
        rw [if_neg (by simpa using h2), if_neg (by simpa using h2)]
        exact ih

theorem bucketOf_pushKeys (ks : List String) (idx : List (String × List MatrixRow))
    (v : MatrixRow) (k : String) :
    bucketOf (ks.foldl (fun idx k' => pushAssoc idx k' v) idx) k =
      bucketOf idx k ++ List.replicate (ks.count k) v := by
  induction ks generalizing idx with
  | nil => simp
  | cons k'' ks' ih =>
    rw [List.foldl_cons, ih, bucketOf_pushAssoc, List.append_assoc, List.count_cons]
    by_cases h : k'' = k
    · rw [if_pos h, if_pos (beq_iff_eq.mpr h), List.replicate_succ]
      rfl
    · rw [if_neg h, if_neg (by simpa using h)]
      rfl

theorem bucketOf_buildAux (rows : List MatrixRow) (idx : List (String × List MatrixRow))
    (k : String) :
    bucketOf (rows.foldl (fun idx row =>
        (expandKeys row).foldl (fun idx k => pushAssoc idx k row) idx) idx) k =
      bucketOf idx k ++
        rows.flatMap (fun row => List.replicate ((expandKeys row).count k) row) := by
  induction rows generalizing idx with
  | nil => simp
  | cons a rows ih =>
    rw [List.foldl_cons, ih, bucketOf_pushKeys, List.flatMap_cons, List.append_assoc]

theorem bucketOf_buildMatrixIndex (rows : List MatrixRow) (k : String) :
    bucketOf (buildMatrixIndex rows) k =
      rows.flatMap (fun row => List.replicate ((expandKeys row).count k) row) := by
  unfold buildMatrixIndex
  rw [bucketOf_buildAux]
  simp [bucketOf, lookupAssoc]

theorem find?_replicate_append (n : Nat) (x : MatrixRow) (l : List MatrixRow)
    (P : MatrixRow → Bool) :
    (List.replicate n x ++ l).find? P =
      if n ≠ 0 ∧ P x = true then some x else l.find? P := by
  induction n with
  | zero => simp
  | succ n ih =>
    rw [List.replicate_succ, List.cons_append]
    by_cases hP : P x = true
    · rw [List.find?_cons_of_pos _ hP, if_pos ⟨Nat.succ_ne_zero n, hP⟩]
    · rw [List.find?_cons_of_neg _ hP, ih,
        if_neg (fun hc => hP hc.2), if_neg (fun hc => hP hc.2)]

theorem find?_flatMap_replicate (rows : List MatrixRow) (c : MatrixRow → Nat)
    (P : MatrixRow → Bool) :
    (rows.flatMap (fun row => List.replicate (c row) row)).find? P =
      rows.find? (fun row => decide (c row ≠ 0) && P row) := by
  induction rows with
  | nil => rfl
  | cons a rows ih =>
    rw [List.flatMap_cons, find?_replicate_append, ih]
    by_cases h : c a ≠ 0 ∧ P a = true
    · rw [if_pos h, List.find?_cons_of_pos _ ?_]
      rw [Bool.and_eq_true]
      exact ⟨decide_eq_true h.1, h.2⟩
    · rw [if_neg h, List.find?_cons_of_neg _ ?_]
      rw [Bool.and_eq_true]
      rintro ⟨h1, h2⟩
      exact h ⟨of_decide_eq_true h1, h2⟩

theorem find?_and_of_imp {l : List MatrixRow} {P Q : MatrixRow → Bool}
    (h : ∀ x ∈ l, P x = true → Q x = true) :
    l.find? (fun x => Q x && P x) = l.find? P := by
  induction l with
  | nil => rfl
  | cons a l ih =>
    by_cases hP : P a = true
    · rw [@List.find?_cons_of_pos _ P a l hP,
        List.find?_cons_of_pos _ (by
          rw [Bool.and_eq_true]
          exact ⟨h a (List.mem_cons_self a l) hP, hP⟩)]
    · rw [@List.find?_cons_of_neg _ P a l hP,
        List.find?_cons_of_neg _ (by
          rw [Bool.and_eq_true]
          rintro ⟨-, h2⟩
          exact hP h2),
        ih (fun x hx => h x (List.mem_cons_of_mem a hx))]

theorem checkMatch_mem_base {c v : String} (hc : c ∈ wfBase)
    (hv : v ∈ (["WORK", "OFF"] : List String)) (h : checkMatch c v = true) :
    v ∈ wildcardVals c ["WORK", "OFF"] := by
  fin_cases hc <;> fin_cases hv <;> revert h <;> decide

theorem checkMatch_mem_rule {c v : String} (hc : c ∈ wfRule)
    (hv : v ∈ (["WORK", "OFF", "NONE"] : List String)) (h : checkMatch c v = true) :
    v ∈ wildcardVals c ["WORK", "OFF", "NONE"] := by
  fin_cases hc <;> fin_cases hv <;> revert h <;> decide

theorem checkMatch_mem_ph {c v : String} (hc : c ∈ wfPh)
    (hv : v ∈ (["TRUE", "FALSE"] : List String)) (h : checkMatch c v = true) :
    v ∈ wildcardVals c ["TRUE", "FALSE"] := by
  fin_cases hc <;> fin_cases hv <;> revert h <;> decide

theorem checkMatch_mem_req {c v : String} (hc : c ∈ wfReq)
    (hv : v ∈ (["NONE", "COMP_DAY", "LEAVE"] : List String)) (h : checkMatch c v = true) :
    v ∈ wildcardVals c ["NONE", "COMP_DAY", "LEAVE"] := by
  fin_cases hc <;> fin_cases hv <;> revert h <;> decide

theorem matrixKey_mem_expandKeys {row : MatrixRow} {b r p q : String}
    (hb : b ∈ wildcardVals row.base ["WORK", "OFF"])
    (hr : r ∈ wildcardVals row.rule ["WORK", "OFF", "NONE"])
    (hp : p ∈ wildcardVals row.ph ["TRUE", "FALSE"])
    (hq : q ∈ wildcardVals row.req ["NONE", "COMP_DAY", "LEAVE"]) :
    matrixKey b r p q ∈ expandKeys row := by
  unfold expandKeys
  exact List.mem_flatMap.mpr ⟨b, hb, List.mem_flatMap.mpr ⟨r, hr,
    List.mem_flatMap.mpr ⟨p, hp, List.mem_map.mpr ⟨q, hq, rfl⟩⟩⟩⟩

/-- **C4.**  Over decision tables whose rows draw each dimension from its
documented domain (or a wildcard), and for any concrete four-flag lookup:
a criterion `ANY`/`IGNORED` passes `checkMatch` against every value; the
indexed buckets contain only the original rows — the wildcard expansion files
the very same row object, so its status/action/reason are those of the
corresponding literal row — and the two-stage indexed lookup returns exactly
the first `rowMatches`-matching row of the table in original source order. -/
theorem wildcard_expansion_correct (rows : List MatrixRow) (b r p q : String)
    (hwf : ∀ row ∈ rows, wfRow row)
    (hb : b ∈ (["WORK", "OFF"] : List String))
    (hr : r ∈ (["WORK", "OFF", "NONE"] : List String))
    (hp : p ∈ (["TRUE", "FALSE"] : List String))
    (hq : q ∈ (["NONE", "COMP_DAY", "LEAVE"] : List String)) :
    (∀ c v : String, c = "ANY" ∨ c = "IGNORED" → checkMatch c v = true) ∧
    (∀ k : String, ∀ row ∈ bucketOf (buildMatrixIndex rows) k, row ∈ rows) ∧
    matrixFindKey (buildMatrixIndex rows) b r p q =
      rows.find? (fun row => rowMatches row b r p q) := by
  refine ⟨?_, ?_, ?_⟩
  · intro c v h
    have hup : jsTrim (jsUpper c) = "ANY" ∨ jsTrim (jsUpper c) = "IGNORED" := by
      rcases h with rfl | rfl
      · exact Or.inl (by decide)
      · exact Or.inr (by decide)
    unfold checkMatch
    rcases hup with hup | hup <;> simp [hup]
  · intro k row hrow
    rw [bucketOf_buildMatrixIndex] at hrow
    obtain ⟨row', hrow', hmem⟩ := List.mem_flatMap.mp hrow
    rw [List.eq_of_mem_replicate hmem]
    exact hrow'
  · unfold matrixFindKey
    rw [bucketOf_buildMatrixIndex, find?_flatMap_replicate]
    refine find?_and_of_imp ?_
    intro row hrow hmatch
    refine decide_eq_true ?_
    rw [Ne, List.count_eq_zero]
    intro habs
    refine habs ?_
    have h4 := hmatch
    unfold rowMatches at h4
    rw [Bool.and_eq_true, Bool.and_eq_true, Bool.and_eq_true] at h4
    obtain ⟨⟨⟨h1, h2⟩, h3⟩, h4⟩ := h4
    obtain ⟨hw1, hw2, hw3, hw4⟩ := hwf row hrow
    exact matrixKey_mem_expandKeys (checkMatch_mem_base hw1 hb h1)
      (checkMatch_mem_rule hw2 hr h2) (checkMatch_mem_ph hw3 hp h3)
      (checkMatch_mem_req hw4 hq h4)

/-- Witness for `wildcard_expansion_correct`: a table holding a wildcard leave
row and a literal workday row; for the concrete flags `(WORK, NONE, FALSE,
NONE)` the indexed lookup and a direct first-match scan agree, both skipping
the wildcard row (its `LEAVE` request criterion fails) in favour of the
literal one. -/
theorem wildcard_expansion_witness :
    matrixFindKey (buildMatrixIndex [wRowLeave, wRowWork]) "WORK" "NONE" "FALSE" "NONE" =
      List.find? (fun row => rowMatches row "WORK" "NONE" "FALSE" "NONE")
        [wRowLeave, wRowWork] ∧
    List.find? (fun row => rowMatches row "WORK" "NONE" "FALSE" "NONE")
        [wRowLeave, wRowWork] = some wRowWork := by
  refine ⟨(wildcard_expansion_correct [wRowLeave, wRowWork] "WORK" "NONE" "FALSE" "NONE"
    (by decide) (by decide) (by decide) (by decide) (by decide)).2.2, by decide⟩

/-! ## Rule loading: sanitation timing (C7) -/

/-- **C7, counterexample.**  An approved SHIFT_OVERRIDE raw rule whose shift
cell is a lone space is *kept* by `parseRules`: it appears, empty-trimmed shift
and all, in the per-employee rule list handed to the resolver.  This refutes
the claim that such rules are dropped at rule-load time, before sorting. -/
theorem malformed_rule_counterexample :
    parseRules [cexRaw7] = [("emp-1042", [ruleOfRaw "2025-01-01" cexRaw7])] ∧
    (ruleOfRaw "2025-01-01" cexRaw7).type = "SHIFT_OVERRIDE" ∧
    jsTrim (ruleOfRaw "2025-01-01" cexRaw7).shift = "" := by
  refine ⟨by decide, by decide, by decide⟩

/-- **C7, amended.**  A SHIFT_OVERRIDE rule whose shift value is empty after
trimming survives rule loading but is excluded by the resolver's active-rule
sanitation filter (`audit_inputs`), so it is never active in either pass;
DAY_PATTERN rules are never rejected by that filter. -/
theorem malformed_rule_filtered (meta : DayMeta) (rules : List Rule) (r s : Rule)
    (hty : r.type = "SHIFT_OVERRIDE") (hsh : jsTrim r.shift = "")
    (hs : s.type = "DAY_PATTERN") :
    r ∉ activeRulesFor meta rules ∧ audit_inputs s = true := by
  have haudit : audit_inputs r = false := by
    unfold audit_inputs
    rw [if_pos (by rw [hty]; exact beq_self_eq_true _),
      if_pos (by rw [hsh]; simp)]
  constructor
  · intro hmem
    have := List.of_mem_filter hmem
    rw [Bool.and_eq_true, Bool.and_eq_true, Bool.and_eq_true] at this
    rw [haudit] at this
    exact Bool.false_ne_true this.2
  · unfold audit_inputs
    rw [if_neg (by rw [hs]; decide)]

/-- Witness for `malformed_rule_filtered`: the parsed form of the blank-shift
raw rule is absent from the active set of a Monday inside its window, while a
DAY_PATTERN rule passes sanitation. -/
theorem malformed_rule_filtered_witness :
    ruleOfRaw "2025-01-01" cexRaw7 ∉
      activeRulesFor wMeta [ruleOfRaw "2025-01-01" cexRaw7] ∧
    audit_inputs wRuleA = true := by
  exact malformed_rule_filtered wMeta [ruleOfRaw "2025-01-01" cexRaw7]
    (ruleOfRaw "2025-01-01" cexRaw7) wRuleA (by decide) (by decide) (by decide)

/-! ## Rule sorting (C8) -/

theorem strCompare_le_iff {a b : String} : strCompare a b ≤ 0 ↔ idLe a b := by
  unfold strCompare
  by_cases h1 : strLt a b = true
  · rw [if_pos h1]
    exact ⟨fun _ => Or.inl h1, fun _ => by omega⟩
  · rw [if_neg h1]
    by_cases h2 : (a == b) = true
    · rw [if_pos h2]
      exact ⟨fun _ => Or.inr (beq_iff_eq.mp h2), fun _ => le_refl 0⟩
    · rw [if_neg h2]
      constructor
      · intro h
        omega
      · rintro (h | rfl)
        · exact absurd h h1
        · exact absurd (beq_self_eq_true a) h2

theorem typeRank_cases (a : Rule) : typeRank a = 0 ∨ typeRank a = 1 := by
  unfold typeRank
  by_cases h : (a.type == "DAY_PATTERN") = true
  · rw [if_pos h]; exact Or.inl rfl
  · rw [if_neg h]; exact Or.inr rfl

theorem freqRank_cases (a : Rule) : freqRank a = 0 ∨ freqRank a = 1 := by
  unfold freqRank
  by_cases h : (a.freq != "ALL") = true
  · rw [if_pos h]; exact Or.inl rfl
  · rw [if_neg h]; exact Or.inr rfl

theorem ruleLeB_iff {a b : Rule} : ruleLeB a b = true ↔ ruleOrd a b := by
  rw [ruleLeB, decide_eq_true_iff]
  unfold ruleCompare ruleOrd
  by_cases h1 : typeRank a = typeRank b
  · rw [if_neg (by simp [h1])]
    by_cases h2 : freqRank a = freqRank b
    · rw [if_neg (by simp [h2])]
      by_cases h3 : a.prio = b.prio
      · rw [if_neg (by simp [h3])]
        rw [strCompare_le_iff]
        constructor
        · intro h
          exact Or.inr ⟨h1, Or.inr ⟨h2, Or.inr ⟨h3, h⟩⟩⟩
        · rintro (h | ⟨-, h | ⟨-, h | ⟨-, h⟩⟩⟩)
          · omega
          · omega
          · omega
          · exact h
      · rw [if_pos (by simpa using h3)]
        constructor
        · intro h
          exact Or.inr ⟨h1, Or.inr ⟨h2, Or.inl (by omega)⟩⟩
        · rintro (h | ⟨-, h | ⟨-, h | ⟨h, -⟩⟩⟩)
          · omega
          · omega
          · omega
          · exact absurd h h3
    · rw [if_pos (by simpa using h2)]
      constructor
      · intro h
        rcases freqRank_cases a with ha | ha <;> rcases freqRank_cases b with hb | hb <;>
          first
            | (exact absurd (ha.trans hb.symm) h2)
            | (exact Or.inr ⟨h1, Or.inl (by omega)⟩)
      · rintro (h | ⟨-, h | ⟨h, -⟩⟩)
        · omega
        · omega
        · exact absurd h h2
  · rw [if_pos (by simpa using h1)]
    constructor
    · intro h
      rcases typeRank_cases a with ha | ha <;> rcases typeRank_cases b with hb | hb <;>
        first
          | (exact absurd (ha.trans hb.symm) h1)
          | (exact Or.inl (by omega))
    · rintro (h | ⟨h, -⟩)
      · omega
      · exact absurd h h1

theorem ruleOrd_trans {a b c : Rule} (h : ruleOrd a b) (h' : ruleOrd b c) :
    ruleOrd a c := by
  rcases h with h | ⟨e1, h⟩
  · rcases h' with h' | ⟨e1', h'⟩
    · exact Or.inl (lt_trans h h')
    · exact Or.inl (by omega)
  · rcases h' with h' | ⟨e1', h'⟩
    · exact Or.inl (by omega)
    · refine Or.inr ⟨by omega, ?_⟩
      rcases h with h | ⟨e2, h⟩
      · rcases h' with h' | ⟨e2', h'⟩
        · exact Or.inl (lt_trans h h')
        · exact Or.inl (by omega)
      · rcases h' with h' | ⟨e2', h'⟩
        · exact Or.inl (by omega)
        · refine Or.inr ⟨by omega, ?_⟩
          rcases h with h | ⟨e3, h⟩
          · rcases h' with h' | ⟨e3', h'⟩
            · exact Or.inl (lt_trans h' h)
            · exact Or.inl (by omega)
          · rcases h' with h' | ⟨e3', h'⟩
            · exact Or.inl (by omega)
            · exact Or.inr ⟨by omega, idLe_trans h h'⟩

theorem ruleOrd_total (a b : Rule) : ruleOrd a b ∨ ruleOrd b a := by
  by_cases h1 : typeRank a = typeRank b
  · by_cases h2 : freqRank a = freqRank b
    · by_cases h3 : a.prio = b.prio
      · rcases idLe_total a.id b.id with h | h
        · exact Or.inl (Or.inr ⟨h1, Or.inr ⟨h2, Or.inr ⟨h3, h⟩⟩⟩)
        · exact Or.inr (Or.inr ⟨h1.symm, Or.inr ⟨h2.symm, Or.inr ⟨h3.symm, h⟩⟩⟩)
      · rcases lt_or_gt_of_ne h3 with h | h
        · exact Or.inr (Or.inr ⟨h1.symm, Or.inr ⟨h2.symm, Or.inl h⟩⟩)
        · exact Or.inl (Or.inr ⟨h1, Or.inr ⟨h2, Or.inl h⟩⟩)
    · rcases lt_or_gt_of_ne h2 with h | h
      · exact Or.inl (Or.inr ⟨h1, Or.inl h⟩)
      · exact Or.inr (Or.inr ⟨h1.symm, Or.inl h⟩)
  · rcases lt_or_gt_of_ne h1 with h | h
    · exact Or.inl (Or.inl h)
    · exact Or.inr (Or.inl h)

theorem mem_insertBy {α : Type} (le : α → α → Bool) (x : α) :
    ∀ (l : List α) (y : α), y ∈ insertBy le x l → y = x ∨ y ∈ l
  | [], y, h => by
    simp only [insertBy] at h
    exact Or.inl (List.mem_singleton.mp h)
  | z :: zs, y, h => by
    simp only [insertBy] at h
    by_cases hc : le x z = true
    · rw [if_pos hc] at h
      rcases List.mem_cons.mp h with rfl | h
      · exact Or.inl rfl
      · exact Or.inr h
    · rw [if_neg hc] at h
      rcases List.mem_cons.mp h with rfl | h
      · exact Or.inr (List.mem_cons_self y zs)
      · rcases mem_insertBy le x zs y h with h | h
        · exact Or.inl h
        · exact Or.inr (List.mem_cons_of_mem z h)

theorem pairwise_insertBy {α : Type} {le : α → α → Bool}
    (htot : ∀ a b, le a b = true ∨ le b a = true)
    (htrans : ∀ a b c, le a b = true → le b c = true → le a c = true)
    (x : α) :
    ∀ {l : List α}, l.Pairwise (fun a b => le a b = true) →
      (insertBy le x l).Pairwise (fun a b => le a b = true)
  | [], _ => List.pairwise_singleton _ x
  | z :: zs, h => by
    obtain ⟨hz, hzs⟩ := List.pairwise_cons.mp h
    simp only [insertBy]
    by_cases hc : le x z = true
    · rw [if_pos hc]
      refine List.pairwise_cons.mpr ⟨?_, h⟩
      intro y hy
      rcases List.mem_cons.mp hy with rfl | hy
      · exact hc
      · exact htrans x z y hc (hz y hy)
    · rw [if_neg hc]
      refine List.pairwise_cons.mpr ⟨?_, pairwise_insertBy htot htrans x hzs⟩
      intro y hy
      rcases mem_insertBy le x zs y hy with heq | hy
      · subst heq
        rcases htot y z with h' | h'
        · exact absurd h' hc
        · exact h'
      · exact hz y hy

theorem pairwise_sortBy {α : Type} {le : α → α → Bool}
    (htot : ∀ a b, le a b = true ∨ le b a = true)
    (htrans : ∀ a b c, le a b = true → le b c = true → le a c = true)
    (l : List α) :
    (sortBy le l).Pairwise (fun a b => le a b = true) := by
  induction l with
  | nil => exact List.Pairwise.nil
  | cons a l ih => exact pairwise_insertBy htot htrans a ih

theorem lookupAssoc_map_values {α β : Type} (f : α → β)
    (l : List (String × α)) (k : String) :
    lookupAssoc (l.map (fun kv => (kv.1, f kv.2))) k = (lookupAssoc l k).map f := by
  induction l with
  | nil => rfl
  | cons hd rest ih =>
    obtain ⟨k', v⟩ := hd
    by_cases h : (k' == k) = true
    · simp [lookupAssoc, h]
    · simp only [List.map_cons, lookupAssoc]
      rw [if_neg h, if_neg h]
      exact ih

/-- **C8, counterexample.**  Two approved DAY_PATTERN raw rules in a full
priority tie, ids `A` and `B`, fed to `parseRules` with `B` first: the sorted
per-employee list comes back `[A, B]` — the lexicographically *lesser* id
first — even though the resolver's winner comparison prefers `B`.  This
refutes criterion (4) of the claim (greater id before lesser) and the claimed
agreement of the sort order with the winner comparison. -/
theorem rule_sort_counterexample :
    lookupAssoc (parseRules [cexRaw8B, cexRaw8A]) "emp-1042" =
      some [cexRule8A, cexRule8B] ∧
    cexRule8A.prio = cexRule8B.prio ∧
    strLt cexRule8A.id cexRule8B.id = true ∧
    findWinningRule [cexRule8A, cexRule8B] "DAY_PATTERN" = cexRule8B := by
  refine ⟨by decide, by decide, by decide, by decide⟩

/-- **C8, amended.**  Every per-employee list produced by `parseRules` is
pairwise ordered by: (1) DAY_PATTERN before SHIFT_OVERRIDE; (2) non-`ALL`
frequency before `ALL`; (3) higher numeric priority before lower; (4) on a
full tie, the lexicographically *lesser* id before the greater.  The ordering
agrees with the resolver's winner comparison only in the priority criterion:
for two rules of the same kind and the same frequency class, the rule with the
strictly higher priority — the winner — sorts strictly earlier. -/
theorem rule_sort_order (rows : List RawRule) (emp : String) (l : List Rule)
    (h : lookupAssoc (parseRules rows) emp = some l) :
    l.Pairwise ruleOrd ∧
    (∀ a b : Rule, a.type = b.type → freqRank a = freqRank b → b.prio < a.prio →
      ruleOrd a b ∧ ¬ ruleOrd b a) := by
  constructor
  · unfold parseRules at h
    rw [lookupAssoc_map_values] at h
    obtain ⟨l0, -, rfl⟩ := Option.map_eq_some'.mp h
    have htot : ∀ a b : Rule, ruleLeB a b = true ∨ ruleLeB b a = true := by
      intro a b
      rcases ruleOrd_total a b with h' | h'
      · exact Or.inl (ruleLeB_iff.mpr h')
      · exact Or.inr (ruleLeB_iff.mpr h')
    have htrans : ∀ a b c : Rule,
        ruleLeB a b = true → ruleLeB b c = true → ruleLeB a c = true := by
      intro a b c h1 h2
      exact ruleLeB_iff.mpr (ruleOrd_trans (ruleLeB_iff.mp h1) (ruleLeB_iff.mp h2))
    exact (pairwise_sortBy htot htrans l0).imp (fun h' => ruleLeB_iff.mp h')
  · intro a b h1 h2 h3
    have ht : typeRank a = typeRank b := by
      unfold typeRank
      rw [h1]
    constructor
    · exact Or.inr ⟨ht, Or.inr ⟨h2, Or.inl h3⟩⟩
    · rintro (h' | ⟨-, h' | ⟨-, h' | ⟨h', -⟩⟩⟩)
      · omega
      · omega
      · omega
      · omega

/-- Witness for `rule_sort_order`: the concrete tied pair parses to an
ordered list satisfying the amended sort order. -/
theorem rule_sort_order_witness :
    List.Pairwise ruleOrd [cexRule8A, cexRule8B] := by
  exact (rule_sort_order [cexRaw8B, cexRaw8A] "emp-1042" [cexRule8A, cexRule8B]
    (by decide)).1

/-! ## Ledger lemmas -/

theorem existingKeys_eq (L : List LedgerRow) :
    existingKeys L = (L.filter (fun row => normEmp row.employee != "")).map rowKey := by
  suffices h : ∀ (M : List LedgerRow) (acc : List String),
      M.foldl (fun acc row =>
        if normEmp row.employee != "" then acc ++ [rowKey row] else acc) acc =
      acc ++ (M.filter (fun row => normEmp row.employee != "")).map rowKey by
    unfold existingKeys
    rw [h L [], List.nil_append]
  intro M
  induction M with
  | nil => intro acc; simp
  | cons a M ih =>
    intro acc
    rw [List.foldl_cons, List.filter_cons]
    by_cases h : (normEmp a.employee != "") = true
    · rw [if_pos h, if_pos h, ih, List.map_cons]
      simp
    · rw [if_neg h, if_neg h, ih]

theorem mem_existingKeys {L : List LedgerRow} {k : String} :
    k ∈ existingKeys L ↔ ∃ row ∈ L, normEmp row.employee ≠ "" ∧ rowKey row = k := by
  rw [existingKeys_eq]
  constructor
  · intro h
    obtain ⟨row, hrow, rfl⟩ := List.mem_map.mp h
    obtain ⟨hmem, hgood⟩ := List.mem_filter.mp hrow
    exact ⟨row, hmem, by simpa using hgood, rfl⟩
  · rintro ⟨row, hmem, hgood, rfl⟩
    exact List.mem_map.mpr ⟨row, List.mem_filter.mpr ⟨hmem, by simpa using hgood⟩, rfl⟩

theorem countKey_append (L1 L2 : List LedgerRow) (k : String) :
    countKey (L1 ++ L2) k = countKey L1 k + countKey L2 k := by
  simp [countKey, List.filter_append]

theorem countKey_ne_zero {L : List LedgerRow} {k : String} :
    countKey L k ≠ 0 ↔ ∃ row ∈ L, rowKey row = k := by
  constructor
  · intro h
    have hne : L.filter (fun row => rowKey row == k) ≠ [] := by
      intro he
      exact h (by unfold countKey; rw [he]; rfl)
    obtain ⟨row, hrow⟩ := List.exists_mem_of_ne_nil _ hne
    obtain ⟨hmem, hkey⟩ := List.mem_filter.mp hrow
    exact ⟨row, hmem, beq_iff_eq.mp hkey⟩
  · rintro ⟨row, hmem, hkey⟩ habs
    have hmemf : row ∈ L.filter (fun row => rowKey row == k) :=
      List.mem_filter.mpr ⟨hmem, beq_iff_eq.mpr hkey⟩
    unfold countKey at habs
    rw [List.length_eq_zero] at habs
    rw [habs] at hmemf
    exact List.not_mem_nil row hmemf

theorem grant_single (now : Nat) (L : List LedgerRow) (g : GrantIntent) :
    grantEntitlements now L [g] =
      if ledgerKey g.employee g.dateStr ∈ existingKeys L then L
      else L ++ [⟨g.employee, g.dateStr, "COMP_DAY", "Active", "", now⟩] := by
  unfold grantEntitlements
  have hfold : List.foldl (grantStep now) (existingKeys L, ([] : List LedgerRow)) [g] =
      grantStep now (existingKeys L, []) g := rfl
  rw [hfold]
  unfold grantStep
  by_cases h : ledgerKey g.employee g.dateStr ∈ existingKeys L
  · rw [if_pos h]
    have hc : (existingKeys L).contains (ledgerKey g.employee g.dateStr) = true :=
      List.elem_iff.mpr h
    simp only [grantStep]
    rw [if_pos hc]
    simp
  · rw [if_neg h]
    have hc : (existingKeys L).contains (ledgerKey g.employee g.dateStr) = false := by
      rcases hcc : (existingKeys L).contains (ledgerKey g.employee g.dateStr) with _ | _
      · rfl
      · exact absurd (List.elem_iff.mp hcc) h
    simp only [grantStep]
    rw [if_neg (by rw [hc]; exact Bool.false_ne_true)]
    simp

/-- **C5, counterexample.**  A grant intent whose employee cell is a lone
space: its normalised employee is empty, so the staged row is invisible to the
`existing`-key scan of a later run (`if (l && dt)` skips it), and granting
twice from an empty ledger leaves *two* entries with the intent's key. -/
theorem grant_duplicate_counterexample :
    grantEntitlements 0 [] [cexGrantBlank] =
      [⟨" ", "2025-01-01", "COMP_DAY", "Active", "", 0⟩] ∧
    countKey (grantEntitlements 0 [] [cexGrantBlank]) "|2025-01-01" = 1 ∧
    countKey (grantEntitlements 1 (grantEntitlements 0 [] [cexGrantBlank])
      [cexGrantBlank]) "|2025-01-01" = 2 := by
  refine ⟨by decide, by decide, by decide⟩

/-- **C5, amended.**  For ledger snapshots all of whose rows have a non-empty
normalised employee, and an intent likewise: `grantEntitlements` stages a new
row — entitlement `COMP_DAY`, activation `Active`, timestamped now — exactly
when no entry with the intent's key exists (whether Active or Inactive), and
granting the same intent twice leaves exactly one entry for that key. -/
theorem grant_idempotent (now now2 : Nat) (L : List LedgerRow) (g : GrantIntent)
    (hg : normEmp g.employee ≠ "") (hL : GoodLedger L) :
    (countKey L (ledgerKey g.employee g.dateStr) ≠ 0 →
      grantEntitlements now L [g] = L) ∧
    (countKey L (ledgerKey g.employee g.dateStr) = 0 →
      grantEntitlements now L [g] =
        L ++ [⟨g.employee, g.dateStr, "COMP_DAY", "Active", "", now⟩] ∧
      countKey (grantEntitlements now2 (grantEntitlements now L [g]) [g])
        (ledgerKey g.employee g.dateStr) = 1) := by
  constructor
  · intro h
    obtain ⟨row, hmem, hkey⟩ := countKey_ne_zero.mp h
    rw [grant_single, if_pos (mem_existingKeys.mpr ⟨row, hmem, hL row hmem, hkey⟩)]
  · intro h
    have hnotin : ledgerKey g.employee g.dateStr ∉ existingKeys L := by
      intro hc
      obtain ⟨row, hmem, -, hkey⟩ := mem_existingKeys.mp hc
      exact countKey_ne_zero.mpr ⟨row, hmem, hkey⟩ h
    have h1 : grantEntitlements now L [g] =
        L ++ [⟨g.employee, g.dateStr, "COMP_DAY", "Active", "", now⟩] := by
      rw [grant_single, if_neg hnotin]
    refine ⟨h1, ?_⟩
    have hin : ledgerKey g.employee g.dateStr ∈
        existingKeys (L ++ [⟨g.employee, g.dateStr, "COMP_DAY", "Active", "", now⟩]) :=
      mem_existingKeys.mpr ⟨⟨g.employee, g.dateStr, "COMP_DAY", "Active", "", now⟩,
        List.mem_append_right _ (List.mem_singleton.mpr rfl), hg, rfl⟩
    rw [h1, grant_single, if_pos hin, countKey_append, h]
    show 0 + countKey [⟨g.employee, g.dateStr, "COMP_DAY", "Active", "", now⟩]
      (ledgerKey g.employee g.dateStr) = 1
    have hkey : (rowKey ⟨g.employee, g.dateStr, "COMP_DAY", "Active", "", now⟩ ==
        ledgerKey g.employee g.dateStr) = true := beq_iff_eq.mpr rfl
    unfold countKey
    rw [List.filter_cons, hkey]
    simp

/-- Witness for `grant_idempotent`: from an empty ledger, granting `wGrant`
twice stages exactly one `COMP_DAY`/`Active` row for its key. -/
theorem grant_idempotent_witness :
    grantEntitlements 5 [] [wGrant] =
      [⟨"Emp-1042", "2025-03-08", "COMP_DAY", "Active", "", 5⟩] ∧
    countKey (grantEntitlements 6 (grantEntitlements 5 [] [wGrant]) [wGrant])
      (ledgerKey "Emp-1042" "2025-03-08") = 1 := by
  have h := (grant_idempotent 5 6 [] wGrant (by decide)
    (fun row hrow => absurd hrow (List.not_mem_nil row))).2 rfl
  exact ⟨h.1, h.2⟩

/-! ## Revocation (C6) -/

theorem revokeOne_fields (m : List (String × String)) (row : LedgerRow) :
    (revokeOne m row).employee = row.employee ∧
    (revokeOne m row).dateStr = row.dateStr := by
  constructor <;>
    (unfold revokeOne
     split
     · rfl
     · split
       · rfl
       · split
         · rfl
         · rfl)

theorem rowKey_revokeOne (m : List (String × String)) (row : LedgerRow) :
    rowKey (revokeOne m row) = rowKey row := by
  obtain ⟨h1, h2⟩ := revokeOne_fields m row
  unfold rowKey ledgerKey
  rw [h1, h2]

theorem revokeOne_of_inactive (m : List (String × String)) (row : LedgerRow)
    (h : row.activation = "Inactive") : revokeOne m row = row := by
  unfold revokeOne
  split
  · rfl
  · split
    · rfl
    · rw [if_neg (by rw [h]; simp)]

theorem revokeOne_idem (m : List (String × String)) (row : LedgerRow) :
    revokeOne m (revokeOne m row) = revokeOne m row := by
  by_cases h1 : (normEmp row.employee == "") = true
  · have hfix : revokeOne m row = row := by
      unfold revokeOne
      rw [if_pos h1]
    rw [hfix, hfix]
  · rcases hmg : mapGet m (rowKey row) with _ | reason
    · have hfix : revokeOne m row = row := by
        unfold revokeOne
        rw [if_neg h1]
        simp only [hmg]
      rw [hfix, hfix]
    · by_cases h2 : (row.activation != "Inactive") = true
      · have hstep : revokeOne m row =
            { row with
                activation := "Inactive"
                note := (if reason == "COMP_DAY" then "Comp Day Consumed"
                  else "Revoked: Work/Rule Change") } := by
          unfold revokeOne
          rw [if_neg h1]
          simp only [hmg]
          rw [if_pos h2]
        rw [hstep]
        exact revokeOne_of_inactive m _ rfl
      · have hfix : revokeOne m row = row := by
          unfold revokeOne
          rw [if_neg h1]
          simp only [hmg]
          rw [if_neg h2]
        rw [hfix, hfix]

/-- **C6.**  Over ledger snapshots whose activation column only holds
`Active`/`Inactive` (the data-model domain): `revokeLedger` keeps the row
count; rows that do not match an intent's key (with a non-empty normalised
employee) while currently `Active` are returned untouched; a matching `Active`
row becomes `Inactive` with note `Comp Day Consumed` when the effective reason
is `COMP_DAY` and `Revoked: Work/Rule Change` otherwise; rows already
`Inactive` are untouched and a second identical run is a no-op, so revocation
performs exactly one activation transition. -/
theorem revoke_transition (ledger : List LedgerRow) (revs : List RevokeIntent)
    (hdom : ∀ row ∈ ledger, row.activation = "Active" ∨ row.activation = "Inactive") :
    (revokeLedger ledger revs).length = ledger.length ∧
    (∀ row ∈ ledger,
      ¬(normEmp row.employee ≠ "" ∧
          (mapGet (revokeReasonMap revs) (rowKey row)).isSome ∧
          row.activation = "Active") →
      revokeOne (revokeReasonMap revs) row = row) ∧
    (∀ row ∈ ledger, ∀ reason : String, normEmp row.employee ≠ "" →
      mapGet (revokeReasonMap revs) (rowKey row) = some reason →
      row.activation = "Active" →
      revokeOne (revokeReasonMap revs) row =
        { row with
            activation := "Inactive"
            note := (if reason == "COMP_DAY" then "Comp Day Consumed"
              else "Revoked: Work/Rule Change") }) ∧
    revokeLedger (revokeLedger ledger revs) revs = revokeLedger ledger revs := by
  refine ⟨by simp [revokeLedger], ?_, ?_, ?_⟩
  · intro row hrow hneg
    by_cases h1 : (normEmp row.employee == "") = true
    · unfold revokeOne
      rw [if_pos h1]
    · rcases hmg : mapGet (revokeReasonMap revs) (rowKey row) with _ | reason
      · unfold revokeOne
        rw [if_neg h1]
        simp only [hmg]
      · rcases hdom row hrow with hact | hact
        · exact absurd ⟨by simpa using h1, by rw [hmg]; rfl, hact⟩ hneg
        · unfold revokeOne
          rw [if_neg h1]
          simp only [hmg]
          rw [if_neg (by rw [hact]; simp)]
  · intro row hrow reason hemp hmg hact
    unfold revokeOne
    rw [if_neg (by simpa using hemp)]
    simp only [hmg]
    rw [if_pos (by rw [hact]; decide)]
  · unfold revokeLedger
    rw [List.map_map]
    exact List.map_congr_left (fun row _ => revokeOne_idem (revokeReasonMap revs) row)

/-- Witness for `revoke_transition`: revoking the active comp-day row flips it
to `Inactive` with note `Comp Day Consumed`, and a second run changes
nothing. -/
theorem revoke_transition_witness :
    revokeLedger [wLedgerRow] [wRevoke] =
      [⟨"Emp-1042", "2025-03-08", "COMP_DAY", "Inactive", "Comp Day Consumed", 7⟩] ∧
    revokeLedger (revokeLedger [wLedgerRow] [wRevoke]) [wRevoke] =
      revokeLedger [wLedgerRow] [wRevoke] := by
  have h := revoke_transition [wLedgerRow] [wRevoke] (by decide)
  constructor
  · have h3 := h.2.2.1 wLedgerRow (List.mem_cons_self _ _) "COMP_DAY"
      (by decide) (by decide) rfl
    show [revokeOne (revokeReasonMap [wRevoke]) wLedgerRow] = _
    rw [h3]
    decide
  · exact h.2.2.2

/-! ## Ledger invariants over operation sequences (C9) -/

theorem grant_fold_invariant (now : Nat) (L : List LedgerRow) :
    ∀ (gs : List GrantIntent) (st : List String × List LedgerRow),
      (∀ g ∈ gs, normEmp g.employee ≠ "") →
      GoodLedger st.2 →
      UniqKeys (L ++ st.2) →
      (∀ row ∈ L ++ st.2, rowKey row ∈ st.1) →
      GoodLedger (gs.foldl (grantStep now) st).2 ∧
      UniqKeys (L ++ (gs.foldl (grantStep now) st).2) ∧
      (∀ row ∈ L ++ (gs.foldl (grantStep now) st).2,
        rowKey row ∈ (gs.foldl (grantStep now) st).1) ∧
      ∃ tail : List LedgerRow, (gs.foldl (grantStep now) st).2 = st.2 ++ tail
  | [], st, _, hgood, huniq, hkeys =>
    ⟨hgood, huniq, hkeys, [], (List.append_nil _).symm⟩
  | g :: gs, st, hgs, hgood, huniq, hkeys => by
    rw [List.foldl_cons]
    by_cases hc : st.1.contains (ledgerKey g.employee g.dateStr) = true
    · have hstep : grantStep now st g = st := by
        unfold grantStep
        rw [if_pos hc]
      rw [hstep]
      exact grant_fold_invariant now L gs st
        (fun g' hg' => hgs g' (List.mem_cons_of_mem g hg')) hgood huniq hkeys
    · have hstep : grantStep now st g =
          (st.1 ++ [ledgerKey g.employee g.dateStr],
           st.2 ++ [⟨g.employee, g.dateStr, "COMP_DAY", "Active", "", now⟩]) := by
        unfold grantStep
        rw [if_neg hc]
      rw [hstep]
      have hnotmem : ledgerKey g.employee g.dateStr ∉ st.1 :=
        fun hm => hc (List.elem_iff.mpr hm)
      have hgood' : GoodLedger
          (st.2 ++ [⟨g.employee, g.dateStr, "COMP_DAY", "Active", "", now⟩]) := by
        intro row hrow
        rcases List.mem_append.mp hrow with h | h
        · exact hgood row h
        · rw [List.mem_singleton.mp h]
          exact hgs g (List.mem_cons_self g gs)
      have huniq' : UniqKeys
          (L ++ (st.2 ++ [⟨g.employee, g.dateStr, "COMP_DAY", "Active", "", now⟩])) := by
        rw [← List.append_assoc]
        refine List.pairwise_append.mpr ⟨huniq, List.pairwise_singleton _ _, ?_⟩
        intro a ha b hb
        rw [List.mem_singleton.mp hb]
        intro hkey
        have hmem := hkeys a ha
        rw [hkey] at hmem
        exact hnotmem hmem
      have hkeys' : ∀ row ∈
          L ++ (st.2 ++ [⟨g.employee, g.dateStr, "COMP_DAY", "Active", "", now⟩]),
          rowKey row ∈ st.1 ++ [ledgerKey g.employee g.dateStr] := by
        intro row hrow
        rcases List.mem_append.mp hrow with h | h
        · exact List.mem_append_left _ (hkeys row (List.mem_append_left _ h))
        · rcases List.mem_append.mp h with h' | h'
          · exact List.mem_append_left _ (hkeys row (List.mem_append_right _ h'))
          · rw [List.mem_singleton.mp h']
            exact List.mem_append_right _ (List.mem_singleton.mpr rfl)
      obtain ⟨hg2, hu2, hk2, tail, htail⟩ := grant_fold_invariant now L gs
        (st.1 ++ [ledgerKey g.employee g.dateStr],
         st.2 ++ [⟨g.employee, g.dateStr, "COMP_DAY", "Active", "", now⟩])
        (fun g' hg' => hgs g' (List.mem_cons_of_mem g hg')) hgood' huniq' hkeys'
      exact ⟨hg2, hu2, hk2,
        [⟨g.employee, g.dateStr, "COMP_DAY", "Active", "", now⟩] ++ tail,
        by rw [htail, List.append_assoc]⟩

theorem countKey_revokeLedger (L : List LedgerRow) (revs : List RevokeIntent)
    (k : String) :
    countKey (revokeLedger L revs) k = countKey L k := by
  unfold revokeLedger countKey
  induction L with
  | nil => rfl
  | cons a L ih =>
    rw [List.map_cons, List.filter_cons, List.filter_cons, rowKey_revokeOne]
    by_cases h : (rowKey a == k) = true
    · rw [if_pos h, if_pos h]
      simp only [List.length_cons]
      rw [ih]
    · rw [if_neg h, if_neg h]
      exact ih

theorem countKey_le_one_of_uniq {L : List LedgerRow} (h : UniqKeys L) (k : String) :
    countKey L k ≤ 1 := by
  unfold countKey
  induction h with
  | nil => simp
  | @cons a l ha hl ih =>
    rw [List.filter_cons]
    by_cases hk : (rowKey a == k) = true
    · rw [if_pos hk]
      have hempty : l.filter (fun row => rowKey row == k) = [] := by
        refine List.filter_eq_nil_iff.mpr ?_
        intro b hb hbk
        exact ha b hb ((beq_iff_eq.mp hk).trans (beq_iff_eq.mp hbk).symm)
      rw [hempty]
      simp
    · rw [if_neg hk]
      exact ih

theorem applyOp_preserves (L : List LedgerRow) (op : LedgerOp)
    (hL : GoodLedger L) (hU : UniqKeys L) (hop : goodOp op) :
    GoodLedger (applyOp L op) ∧ UniqKeys (applyOp L op) ∧
    L.length ≤ (applyOp L op).length ∧
    ∀ k : String, countKey L k ≤ countKey (applyOp L op) k := by
  cases op with
  | grant now gs =>
    obtain ⟨hg, hu, -, tail, htail⟩ := grant_fold_invariant now L gs (existingKeys L, [])
      hop (fun row hrow => absurd hrow (List.not_mem_nil row))
      (by rw [List.append_nil]; exact hU)
      (by
        intro row hrow
        rw [List.append_nil] at hrow
        exact mem_existingKeys.mpr ⟨row, hrow, hL row hrow, rfl⟩)
    show GoodLedger (grantEntitlements now L gs) ∧ UniqKeys (grantEntitlements now L gs) ∧
      L.length ≤ (grantEntitlements now L gs).length ∧
      ∀ k : String, countKey L k ≤ countKey (grantEntitlements now L gs) k
    unfold grantEntitlements
    refine ⟨?_, hu, by simp, fun k => ?_⟩
    · intro row hrow
      rcases List.mem_append.mp hrow with h | h
      · exact hL row h
      · exact hg row h
    · rw [countKey_append]
      exact Nat.le_add_right _ _
  | revoke revs =>
    refine ⟨?_, ?_, ?_, ?_⟩
    · intro row hrow
      obtain ⟨row0, hrow0, rfl⟩ := List.mem_map.mp hrow
      have hemp := (revokeOne_fields (revokeReasonMap revs) row0).1
      show normEmp (revokeOne (revokeReasonMap revs) row0).employee ≠ ""
      rw [hemp]
      exact hL row0 hrow0
    · show UniqKeys (revokeLedger L revs)
      unfold UniqKeys revokeLedger
      rw [List.pairwise_map]
      refine hU.imp ?_
      intro a b hab
      rw [rowKey_revokeOne, rowKey_revokeOne]
      exact hab
    · simp [applyOp, revokeLedger]
    · intro k
      show countKey L k ≤ countKey (revokeLedger L revs) k
      rw [countKey_revokeLedger]

/-- **C9, counterexample.**  A one-row ledger (trivially one entry per key)
whose row's employee cell is a lone space: a grant for the same key adds a
second entry, because the `existing`-key scan skips rows with an empty
normalised employee.  This refutes the claim for unrestricted ledger states
and intents. -/
theorem ledger_unique_counterexample :
    cexLedger9.length = 1 ∧
    countKey cexLedger9 "|2025-01-01" = 1 ∧
    countKey (applyOps cexLedger9 [LedgerOp.grant 1 [cexGrantBlank]])
      "|2025-01-01" = 2 := by
  refine ⟨by decide, by decide, by decide⟩

/-- **C9, amended.**  For ledger states whose rows all carry a non-empty
normalised employee and have pairwise-distinct keys, and for any sequence of
grant and revoke batches whose grant intents all carry a non-empty normalised
employee: the resulting state keeps pairwise-distinct keys (hence at most one
entry, and at most one Active entry, per key); no operation deletes an entry —
the row count never shrinks and no key loses occurrences — and no operation
adds a second entry for a key that already has one. -/
theorem ledger_invariants : ∀ (ops : List LedgerOp) (L : List LedgerRow),
    GoodLedger L → UniqKeys L → (∀ op ∈ ops, goodOp op) →
    GoodLedger (applyOps L ops) ∧
    UniqKeys (applyOps L ops) ∧
    ((applyOps L ops).filter (fun r => r.activation == "Active")).Pairwise
      (fun a b => rowKey a ≠ rowKey b) ∧
    L.length ≤ (applyOps L ops).length ∧
    (∀ k : String, countKey L k ≤ countKey (applyOps L ops) k) ∧
    (∀ k : String, countKey (applyOps L ops) k ≤ 1)
  | [], L, hL, hU, _ =>
    ⟨hL, hU, List.Pairwise.sublist (List.filter_sublist L) hU, le_refl _,
      fun _ => le_refl _, fun k => countKey_le_one_of_uniq hU k⟩
  | op :: ops, L, hL, hU, hops => by
    have hop := hops op (List.mem_cons_self op ops)
    obtain ⟨hL', hU', hlen, hcnt⟩ := applyOp_preserves L op hL hU hop
    obtain ⟨g1, g2, g3, g4, g5, g6⟩ := ledger_invariants ops (applyOp L op) hL' hU'
      (fun op' h' => hops op' (List.mem_cons_of_mem op h'))
    exact ⟨g1, g2, g3, le_trans hlen g4, fun k => le_trans (hcnt k) (g5 k), g6⟩

/-- Witness for `ledger_invariants`: a grant of a fresh key followed by a
revocation leaves pairwise-distinct keys and at most one entry for the
original row's key. -/
theorem ledger_invariants_witness :
    UniqKeys (applyOps [wLedgerRow]
      [LedgerOp.grant 5 [⟨"Other", "2025-03-09"⟩], LedgerOp.revoke [wRevoke]]) ∧
    countKey (applyOps [wLedgerRow]
      [LedgerOp.grant 5 [⟨"Other", "2025-03-09"⟩], LedgerOp.revoke [wRevoke]])
      (rowKey wLedgerRow) ≤ 1 := by
  have h := ledger_invariants
    [LedgerOp.grant 5 [⟨"Other", "2025-03-09"⟩], LedgerOp.revoke [wRevoke]]
    [wLedgerRow] (by decide) (by decide) (by decide)
  exact ⟨h.2.1, h.2.2.2.2.2 (rowKey wLedgerRow)⟩

end RosterLogic
